import Mathlib

/-!
Verification of the betterbase encrypted-sync core.

This file gives a shallow embedding of the Rust crates
`less-crypto` / `betterbase-crypto` and `less-sync-core` / `betterbase-sync-core`
(the two prefixes name the same codebase) and proves properties of the
embedding.

Modelling conventions:
- Byte strings are `List Nat` (each element a byte value).  Rust `&str` /
  `String` values are modelled by their UTF-8 byte sequences, so string
  equality and concatenation coincide with the byte-level operations the
  code performs via `as_bytes` and `format!`.
- Machine integers are `Nat` with explicit `% 2 ^ w` at the points where the
  source casts (`as u32`) or serializes fixed-width values; parameters that
  the source types as `u32` / `u64` / `usize` carry `< 2 ^ w` hypotheses in
  the theorems.
- Third-party cryptographic primitives (the `aes-gcm`, `aes-kw`, `hkdf`,
  `sha2`, `p256`, `base64ct` and `serde_json` crates) are not code of this
  repository; they enter the embedding as abstract function parameters
  bundled in `Prims` / `SigPrims` / `MemPrims`, and the contracts the
  repository relies on (round-trip, output lengths, AEAD authentication)
  appear as explicit hypotheses of the theorems.
- Randomness (`generate_dek`, `generate_iv`) is modelled by passing the
  random bytes as explicit arguments.
- Fallible Rust functions returning `Result` become `Except`; stateful code
  (the `EpochKeyCache` memoization map) threads an explicit state value,
  with the `HashMap` modelled as a function `Nat → Option Bytes`.
-/

deriving instance DecidableEq for Except

namespace Betterbase

/-- Byte strings: each element is one byte value. -/
abbrev Bytes := List Nat

/-- UTF-8 bytes of an ASCII string literal (all constants used are ASCII). -/
def strBytes (s : String) : Bytes := s.data.map Char.toNat

/-- Decimal rendering of a natural number, as ASCII bytes
(Rust `format!` of an unsigned integer). -/
def decBytes (n : Nat) : Bytes := (Nat.toDigits 10 n).map Char.toNat

/-- Big-endian bytes of `n`, `k` bytes wide (most significant first). -/
def encBe : Nat → Nat → Bytes
  | 0, _ => []
  | k + 1, n => n / 256 ^ k :: encBe k (n % 256 ^ k)

/-- Little-endian bytes of `n`, `k` bytes wide (least significant first). -/
def encLe : Nat → Nat → Bytes
  | 0, _ => []
  | k + 1, n => n % 256 :: encLe k (n / 256)

/-- Big-endian value of a byte list (`u32::from_be_bytes` on 4 bytes). -/
def decBe (bs : Bytes) : Nat := bs.foldl (fun a b => a * 256 + b) 0

/-- Little-endian value of a byte list (`u32::from_le_bytes` on 4 bytes). -/
def decLe : Bytes → Nat
  | [] => 0
  | b :: bs => b + 256 * decLe bs

/-- Consume `k` big-endian bytes, accumulating into `acc`;
returns the value and the remaining bytes. -/
def takeBe (acc : Nat) : Nat → Bytes → Option (Nat × Bytes)
  | 0, bs => some (acc, bs)
  | _ + 1, [] => none
  | k + 1, b :: bs => takeBe (acc * 256 + b) k bs

/-- Error enum of the crypto crate (`less-crypto/src/error.rs`),
restricted to the variants the embedded functions produce; message
payloads carrying only human-readable text are dropped. -/
inductive CryptoError where
  | invalidKeyLength (expected got : Nat)
  | dataTooShort
  | unsupportedVersion (v : Nat)
  | expectedV4 (v : Nat)
  | invalidWrappedDekLength (expected got : Nat)
  | invalidDekLength (expected got : Nat)
  | invalidEpoch (e : Int)
  | encryptionFailed
  | decryptionFailed
  | wrapFailed
  | unwrapFailed
  | nonFiniteNumber
  | dangerousPathSegment (seg : Bytes)
  deriving Repr, DecidableEq

/-- Error enum of the sync-core crate (`betterbase-sync-core/src/error.rs`);
`reencrypt.rs` constructs `NoKek` with the epoch alone. -/
inductive SyncError where
  | cborEncode
  | cborDecode
  | paddingError
  | noKek (epoch : Nat)
  | backwardDerivation (target base : Nat)
  | epochTooFarAhead (target base distance maxAdv : Nat)
  | invalidEpochAdvance (niu current : Nat)
  | missingDek
  | invalidMembershipEntry
  | crypto (e : CryptoError)
  | json
  deriving Repr, DecidableEq

/-! ### Padding (`less-sync-core/src/padding.rs`) -/

/-- Default padding bucket sizes in bytes. -/
def DEFAULT_PADDING_BUCKETS : List Nat :=
  [256, 1024, 4096, 16384, 65536, 262144, 1048576]

/-- Length prefix size for padding (4 bytes, u32 LE). -/
def LENGTH_PREFIX_SIZE : Nat := 4

/-- Pad data to a fixed-size bucket:
`[4 bytes: u32 LE length][data][zero padding]`.  The length cast is
`data.len() as u32`, hence the `% 2 ^ 32`. -/
def pad_to_bucket (data : Bytes) (buckets : List Nat) : Except SyncError Bytes :=
  if buckets.isEmpty then .ok data
  else
    match buckets.find? (fun b => decide (LENGTH_PREFIX_SIZE + data.length ≤ b)) with
    | none => .error .paddingError
    | some b =>
        .ok (encLe 4 (data.length % 2 ^ 32) ++ data
          ++ List.replicate (b - (LENGTH_PREFIX_SIZE + data.length)) 0)

/-- Remove padding: read the 4-byte LE length prefix and extract the data. -/
def unpad (data : Bytes) (buckets : List Nat) : Except SyncError Bytes :=
  if buckets.isEmpty then .ok data
  else if data.length < LENGTH_PREFIX_SIZE then .error .paddingError
  else
    let originalLength := decLe (data.take 4)
    if data.length - LENGTH_PREFIX_SIZE < originalLength then .error .paddingError
    else .ok ((data.drop LENGTH_PREFIX_SIZE).take originalLength)

/-! ### Envelope CBOR codec (`less-sync-core/src/envelope.rs`, `types.rs`)

`BlobEnvelope` derives serde `Serialize`/`Deserialize` with
`#[serde(with = "serde_bytes")]` on `crdt` and
`#[serde(skip_serializing_if = "Option::is_none")]` on `h`; `ciborium`
serializes it as a definite-length CBOR map with text keys
`c`, `v`, `crdt`, and (when present) `h`, using minimal-length headers.
The decoder below parses exactly the CBOR subset such envelopes occupy
(unsigned, byte string, text string items inside one map); `ciborium`
rejects everything else for this target type as well.  UTF-8
re-validation of text strings is omitted: Rust `String`s are valid UTF-8
by construction, and the model identifies a string with its bytes. -/

structure BlobEnvelope where
  c : Bytes
  v : Nat
  crdt : Bytes
  h : Option Bytes
  deriving Repr, DecidableEq

inductive CborItem where
  | uint (n : Nat)
  | bstr (b : Bytes)
  | tstr (s : Bytes)
  deriving Repr, DecidableEq

/-- Minimal-length CBOR header for major type `major` and argument `n`. -/
def cborHdr (major n : Nat) : Bytes :=
  if n < 24 then [major * 32 + n]
  else if n < 256 then [major * 32 + 24, n]
  else if n < 2 ^ 16 then (major * 32 + 25) :: encBe 2 n
  else if n < 2 ^ 32 then (major * 32 + 26) :: encBe 4 n
  else (major * 32 + 27) :: encBe 8 n

def encodeItem : CborItem → Bytes
  | .uint n => cborHdr 0 n
  | .bstr b => cborHdr 2 b.length ++ b
  | .tstr s => cborHdr 3 s.length ++ s

/-- Encode a BlobEnvelope as CBOR bytes (the serialization `ciborium`
produces for the serde derive described above). -/
def encode_envelope (env : BlobEnvelope) : Bytes :=
  cborHdr 5 (if env.h.isSome then 4 else 3)
    ++ encodeItem (.tstr (strBytes "c")) ++ encodeItem (.tstr env.c)
    ++ encodeItem (.tstr (strBytes "v")) ++ encodeItem (.uint env.v)
    ++ encodeItem (.tstr (strBytes "crdt")) ++ encodeItem (.bstr env.crdt)
    ++ (match env.h with
        | some hh => encodeItem (.tstr (strBytes "h")) ++ encodeItem (.tstr hh)
        | none => [])

/-- Parse one CBOR header: major type, argument, rest. -/
def parseHdr : Bytes → Option (Nat × Nat × Bytes)
  | [] => none
  | b :: rest =>
    let major := b / 32
    let ai := b % 32
    if ai < 24 then some (major, ai, rest)
    else if ai = 24 then
      match rest with
      | x :: r => some (major, x, r)
      | [] => none
    else if ai = 25 then (takeBe 0 2 rest).map (fun p => (major, p.1, p.2))
    else if ai = 26 then (takeBe 0 4 rest).map (fun p => (major, p.1, p.2))
    else if ai = 27 then (takeBe 0 8 rest).map (fun p => (major, p.1, p.2))
    else none

/-- Parse one scalar CBOR item (unsigned, byte string or text string). -/
def parseScalar (bs : Bytes) : Option (CborItem × Bytes) :=
  match parseHdr bs with
  | none => none
  | some (major, n, r) =>
    if major = 0 then some (.uint n, r)
    else if major = 2 then
      if n ≤ r.length then some (.bstr (r.take n), r.drop n) else none
    else if major = 3 then
      if n ≤ r.length then some (.tstr (r.take n), r.drop n) else none
    else none

/-- Parse `k` CBOR map pairs: text key followed by a scalar value. -/
def parsePairs : Nat → Bytes → Option (List (Bytes × CborItem) × Bytes)
  | 0, bs => some ([], bs)
  | k + 1, bs =>
    match parseScalar bs with
    | some (.tstr key, r1) =>
      match parseScalar r1 with
      | some (v, r2) => (parsePairs k r2).map (fun p => ((key, v) :: p.1, p.2))
      | none => none
    | _ => none

def lookupPair (ps : List (Bytes × CborItem)) (k : Bytes) : Option CborItem :=
  (ps.find? (fun p => p.1 == k)).map Prod.snd

/-- Decode CBOR bytes into a BlobEnvelope (serde field lookup is
order-insensitive; `v` must fit in a u64). -/
def decode_envelope (bs : Bytes) : Except SyncError BlobEnvelope :=
  match parseHdr bs with
  | none => .error .cborDecode
  | some (major, count, rest) =>
    if major = 5 then
      match parsePairs count rest with
      | none => .error .cborDecode
      | some (pairs, _) =>
        match lookupPair pairs (strBytes "c"), lookupPair pairs (strBytes "v"),
            lookupPair pairs (strBytes "crdt") with
        | some (.tstr c), some (.uint v), some (.bstr crdt) =>
          if v < 2 ^ 64 then
            match lookupPair pairs (strBytes "h") with
            | none => .ok ⟨c, v, crdt, none⟩
            | some (.tstr hh) => .ok ⟨c, v, crdt, some hh⟩
            | some _ => .error .cborDecode
          else .error .cborDecode
        | _, _, _ => .error .cborDecode
    else .error .cborDecode

/-! ### Abstract third-party primitives -/

/-- Abstract third-party symmetric primitives used by the sync pipeline:
AES-256-GCM seal/open (key, iv, aad, data), AES-KW wrap/unwrap
(kek, dek / kek, ciphertext) and HKDF-SHA256 (ikm, salt, info). -/
structure Prims where
  gcmSeal : Bytes → Bytes → Bytes → Bytes → Bytes
  gcmOpen : Bytes → Bytes → Bytes → Bytes → Option Bytes
  kwWrap : Bytes → Bytes → Bytes
  kwUnwrap : Bytes → Bytes → Option Bytes
  hkdf : Bytes → Bytes → Bytes → Bytes

/-- AEAD decryption inverts encryption under matching key/iv/aad. -/
def GcmRoundtrip (P : Prims) : Prop :=
  ∀ k iv aad m, P.gcmOpen k iv aad (P.gcmSeal k iv aad m) = some m

/-- AEAD ciphertext carries at least the 16-byte tag. -/
def GcmMinLen (P : Prims) : Prop :=
  ∀ k iv aad m, k.length = 32 → 16 ≤ (P.gcmSeal k iv aad m).length

/-- AEAD authentication: decryption under any different AAD fails. -/
def GcmAuth (P : Prims) : Prop :=
  ∀ k iv aad aad2 m, aad2 ≠ aad → P.gcmOpen k iv aad2 (P.gcmSeal k iv aad m) = none

/-- AES-KW unwrap inverts wrap under the same KEK. -/
def KwRoundtrip (P : Prims) : Prop :=
  ∀ kek dek, dek.length = 32 → P.kwUnwrap kek (P.kwWrap kek dek) = some dek

/-- AES-KW ciphertext of a 32-byte key is 40 bytes. -/
def KwWrapLen (P : Prims) : Prop :=
  ∀ kek dek, dek.length = 32 → (P.kwWrap kek dek).length = 40

/-- Successful AES-KW unwrap yields a 32-byte key. -/
def KwUnwrapLen (P : Prims) : Prop :=
  ∀ kek w d, P.kwUnwrap kek w = some d → d.length = 32

/-- HKDF output is a 32-byte key. -/
def HkdfLen (P : Prims) : Prop :=
  ∀ ikm salt info, (P.hkdf ikm salt info).length = 32

/-! ### AES-GCM v4 wire format (`less-crypto/src/aes_gcm.rs`) -/

def AES_KEY_LENGTH : Nat := 32

def AES_GCM_IV_LENGTH : Nat := 12

def AES_GCM_TAG_LENGTH : Nat := 16

def CURRENT_VERSION : Nat := 4

def SUPPORTED_VERSIONS : List Nat := [4]

/-- Context for binding ciphertext to a specific record via AAD. -/
structure EncryptionContext where
  space_id : Bytes
  record_id : Bytes
  deriving Repr, DecidableEq

/-- Build AAD from the encryption context:
`[4 bytes: spaceId length (u32 BE)][spaceId UTF-8][recordId UTF-8]`. -/
def build_aad (context : EncryptionContext) : Bytes :=
  encBe 4 (context.space_id.length % 2 ^ 32) ++ context.space_id ++ context.record_id

/-- Encrypt data with AES-256-GCM in the v4 wire format
`[version=4][IV:12][ciphertext+tag]`.  The random IV of `generate_iv`
is passed as the `iv` argument; encrypting without a context uses an
empty AAD (the plain `encrypt` call of the `aead` API). -/
def encrypt_v4 (P : Prims) (data dek iv : Bytes) (context : Option EncryptionContext) :
    Except CryptoError Bytes :=
  if dek.length ≠ AES_KEY_LENGTH then .error (.invalidKeyLength AES_KEY_LENGTH dek.length)
  else
    let aad := match context with
      | some ctx => build_aad ctx
      | none => []
    .ok (CURRENT_VERSION :: (iv ++ P.gcmSeal dek iv aad data))

/-- Decrypt an AES-256-GCM v4 blob. -/
def decrypt_v4 (P : Prims) (blob dek : Bytes) (context : Option EncryptionContext) :
    Except CryptoError Bytes :=
  if dek.length ≠ AES_KEY_LENGTH then .error (.invalidKeyLength AES_KEY_LENGTH dek.length)
  else if blob.length < 1 + AES_GCM_IV_LENGTH + AES_GCM_TAG_LENGTH then .error .dataTooShort
  else
    match blob with
    | [] => .error .dataTooShort
    | version :: rest =>
      if ¬ SUPPORTED_VERSIONS.contains version then .error (.expectedV4 version)
      else
        let iv := rest.take AES_GCM_IV_LENGTH
        let ciphertext := rest.drop AES_GCM_IV_LENGTH
        let aad := match context with
          | some ctx => build_aad ctx
          | none => []
        match P.gcmOpen dek iv aad ciphertext with
        | some plaintext => .ok plaintext
        | none => .error .decryptionFailed

/-! ### DEK wrap/unwrap (`less-crypto/src/dek.rs`) -/

def WRAPPED_DEK_SIZE : Nat := 44

/-- Wrap a DEK with a KEK using AES-KW, prefixed with the epoch
(`epoch.to_be_bytes()` for a `u32` epoch, hence the `% 2 ^ 32`).
The `aes_kw` wrap call cannot fail on a validated 32-byte input. -/
def wrap_dek (P : Prims) (dek kek : Bytes) (epoch : Nat) : Except CryptoError Bytes :=
  if dek.length ≠ AES_KEY_LENGTH then .error (.invalidDekLength AES_KEY_LENGTH dek.length)
  else if kek.length ≠ AES_KEY_LENGTH then .error (.invalidKeyLength AES_KEY_LENGTH kek.length)
  else .ok (encBe 4 (epoch % 2 ^ 32) ++ P.kwWrap kek dek)

/-- Unwrap a DEK from a 44-byte wrapped blob, returning the DEK and the
embedded epoch. -/
def unwrap_dek (P : Prims) (wrapped_dek kek : Bytes) : Except CryptoError (Bytes × Nat) :=
  if wrapped_dek.length ≠ WRAPPED_DEK_SIZE then
    .error (.invalidWrappedDekLength WRAPPED_DEK_SIZE wrapped_dek.length)
  else if kek.length ≠ AES_KEY_LENGTH then .error (.invalidKeyLength AES_KEY_LENGTH kek.length)
  else
    match P.kwUnwrap kek (wrapped_dek.drop 4) with
    | some dek => .ok (dek, decBe (wrapped_dek.take 4))
    | none => .error .unwrapFailed

/-! ### Epoch key derivation (`betterbase-crypto/src/epoch.rs`) -/

def EPOCH_INFO_STR : Bytes := strBytes "betterbase:epoch:v1:"

def EPOCH_SALT : Bytes := strBytes "betterbase:epoch-salt:v1"

/-- HKDF info string for deriving the key of `next_epoch`. -/
def epochInfo (space_id : Bytes) (next_epoch : Nat) : Bytes :=
  EPOCH_INFO_STR ++ space_id ++ strBytes ":" ++ decBytes next_epoch

/-- Derive the next epoch key from the current one via HKDF-SHA256. -/
def derive_next_epoch_key (P : Prims) (current_key space_id : Bytes) (next_epoch : Nat) :
    Except CryptoError Bytes :=
  if current_key.length ≠ AES_KEY_LENGTH then
    .error (.invalidKeyLength AES_KEY_LENGTH current_key.length)
  else if next_epoch < 1 then .error (.invalidEpoch next_epoch)
  else .ok (P.hkdf current_key EPOCH_SALT (epochInfo space_id next_epoch))

/-! ### Epoch key cache (`betterbase-sync-core/src/epoch_cache.rs`) -/

def MAX_EPOCH_ADVANCE : Nat := 1000

/-- Cache state for epoch-derived KEKs; the `HashMap` is modelled as a
function from epoch to optional key. -/
structure EpochKeyCache where
  base_key : Bytes
  base_epoch : Nat
  current_epoch : Nat
  space_id : Bytes
  cache : Nat → Option Bytes

/-- Create a new epoch key cache. -/
def EpochKeyCache.new (base_key : Bytes) (base_epoch : Nat) (space_id : Bytes) :
    EpochKeyCache :=
  ⟨base_key, base_epoch, base_epoch, space_id, fun _ => none⟩

/-- Advance the encryption epoch (monotonic). -/
def update_encryption_epoch (st : EpochKeyCache) (epoch : Nat) : EpochKeyCache :=
  if st.current_epoch < epoch then { st with current_epoch := epoch } else st

/-- The forward-derivation loop of `get_kek`: walk the listed epochs in
order, taking each key from the cache when present and deriving and
memoizing it otherwise. -/
def kekWalk (P : Prims) (space_id : Bytes) (key : Bytes) (cache : Nat → Option Bytes) :
    List Nat → Except CryptoError (Bytes × (Nat → Option Bytes))
  | [] => .ok (key, cache)
  | e :: es =>
    match cache e with
    | some cached => kekWalk P space_id cached cache es
    | none =>
      match derive_next_epoch_key P key space_id e with
      | .error err => .error err
      | .ok k => kekWalk P space_id k (fun x => if x = e then some k else cache x) es

/-- Get the KEK for a given epoch via forward derivation from the base
key, memoizing derived keys.  The source's final `&self.cache[&epoch]`
index (which cannot miss) is modelled with an unreachable `missingDek`
fallback. -/
def get_kek (P : Prims) (st : EpochKeyCache) (epoch : Nat) :
    Except SyncError (Bytes × EpochKeyCache) :=
  if epoch = st.base_epoch then .ok (st.base_key, st)
  else if epoch < st.base_epoch then .error (.backwardDerivation epoch st.base_epoch)
  else if MAX_EPOCH_ADVANCE < epoch - st.base_epoch then
    .error (.epochTooFarAhead epoch st.base_epoch (epoch - st.base_epoch) MAX_EPOCH_ADVANCE)
  else
    match st.cache epoch with
    | some k => .ok (k, st)
    | none =>
      match kekWalk P st.space_id st.base_key st.cache
          (List.range' (st.base_epoch + 1) (epoch - st.base_epoch)) with
      | .error e => .error (.crypto e)
      | .ok (_, cache2) =>
        match cache2 epoch with
        | some k => .ok (k, { st with cache := cache2 })
        | none => .error .missingDek

/-! ### Transport pipeline (`less-sync-core/src/transport.rs`) -/

/-- Encrypt an outbound record: envelope → CBOR → pad → encrypt(DEK) →
`(blob, wrapped_dek)`.  The fresh random DEK of `generate_dek` and the
random IV of `generate_iv` are the `dek` / `iv` arguments; the updated
cache state is returned alongside. -/
def encrypt_outbound (P : Prims) (envelope : BlobEnvelope) (record_id : Bytes)
    (st : EpochKeyCache) (padding_buckets : List Nat) (dek iv : Bytes) :
    Except SyncError ((Bytes × Bytes) × EpochKeyCache) :=
  match pad_to_bucket (encode_envelope envelope) padding_buckets with
  | .error e => .error e
  | .ok padded =>
    let context : EncryptionContext := ⟨st.space_id, record_id⟩
    let epoch := st.current_epoch
    match get_kek P st epoch with
    | .error e => .error e
    | .ok (kek, st2) =>
      match encrypt_v4 P padded dek iv (some context) with
      | .error e => .error (.crypto e)
      | .ok blob =>
        match wrap_dek P dek kek epoch with
        | .error e => .error (.crypto e)
        | .ok wrapped => .ok ((blob, wrapped), st2)

/-- Read the epoch prefix of a wrapped DEK (`less-sync-core/src/reencrypt.rs`). -/
def peek_epoch (wrapped_dek : Bytes) : Except SyncError Nat :=
  if wrapped_dek.length < 4 then .error .missingDek
  else .ok (decBe (wrapped_dek.take 4))

/-- Decrypt an inbound record: unwrap DEK → decrypt → unpad → CBOR →
BlobEnvelope. -/
def decrypt_inbound (P : Prims) (blob wrapped_dek record_id : Bytes)
    (st : EpochKeyCache) (padding_buckets : List Nat) :
    Except SyncError (BlobEnvelope × EpochKeyCache) :=
  match peek_epoch wrapped_dek with
  | .error e => .error e
  | .ok dek_epoch =>
    match get_kek P st dek_epoch with
    | .error e => .error e
    | .ok (kek, st2) =>
      match unwrap_dek P wrapped_dek kek with
      | .error e => .error (.crypto e)
      | .ok (dek, _) =>
        let context : EncryptionContext := ⟨st.space_id, record_id⟩
        match decrypt_v4 P blob dek (some context) with
        | .error e => .error (.crypto e)
        | .ok decrypted =>
          match unpad decrypted padding_buckets with
          | .error e => .error e
          | .ok unpadded =>
            match decode_envelope unpadded with
            | .error e => .error e
            | .ok env => .ok (env, st2)

/-! ### Re-encryption (`less-sync-core/src/reencrypt.rs`) -/

/-- Build the rewrap key cache: starting from the key at the previous
epoch, derive and insert the chain key of each listed epoch. -/
def rewrapCacheLoop (P : Prims) (space_id : Bytes) (key : Bytes) (m : Nat → Option Bytes) :
    List Nat → Except CryptoError (Bytes × (Nat → Option Bytes))
  | [] => .ok (key, m)
  | e :: es =>
    match derive_next_epoch_key P key space_id e with
    | .error err => .error err
    | .ok k => rewrapCacheLoop P space_id k (fun x => if x = e then some k else m x) es

/-- Per-pair body of `rewrap_deks`: skip pairs already at the target
epoch, look up the matching chain key, unwrap and re-wrap. -/
def rewrapLoop (P : Prims) (key_cache : Nat → Option Bytes) (new_key : Bytes)
    (new_epoch : Nat) : List (Bytes × Bytes) → Except SyncError (List (Bytes × Bytes))
  | [] => .ok []
  | (id, w) :: rest =>
    match peek_epoch w with
    | .error e => .error e
    | .ok dek_epoch =>
      if dek_epoch = new_epoch then rewrapLoop P key_cache new_key new_epoch rest
      else
        match key_cache dek_epoch with
        | none => .error (.noKek dek_epoch)
        | some unwrap_key =>
          match unwrap_dek P w unwrap_key with
          | .error e => .error (.crypto e)
          | .ok (dek, _) =>
            match wrap_dek P dek new_key new_epoch with
            | .error e => .error (.crypto e)
            | .ok rewrapped =>
              (rewrapLoop P key_cache new_key new_epoch rest).map
                (fun r => (id, rewrapped) :: r)

/-- Re-wrap a set of DEKs from their current epoch to a new epoch key. -/
def rewrap_deks (P : Prims) (wrapped_deks : List (Bytes × Bytes))
    (current_key : Bytes) (current_epoch : Nat) (new_key : Bytes) (new_epoch : Nat)
    (space_id : Bytes) : Except SyncError (List (Bytes × Bytes)) :=
  if new_epoch ≤ current_epoch then .error (.invalidEpochAdvance new_epoch current_epoch)
  else
    match rewrapCacheLoop P space_id current_key
        (fun x => if x = current_epoch then some current_key else none)
        (List.range' (current_epoch + 1) (new_epoch - current_epoch)) with
    | .error e => .error (.crypto e)
    | .ok (_, key_cache) => rewrapLoop P key_cache new_key new_epoch wrapped_deks

/-! ### JSON model and canonical JSON (`less-crypto/src/edit_chain.rs`)

`serde_json::Value` is modelled with numbers restricted to integers (the
edit-chain data exercised by the claims carries no floats; every integer
is finite, so the `NonFiniteNumber` branch of `canonical_json` cannot
fire in this model).  Objects are association lists; `serde_json`'s map
is a `BTreeMap`, so source-level objects have unique keys. -/

inductive Json where
  | null
  | bool (b : Bool)
  | num (n : Int)
  | str (s : Bytes)
  | arr (items : List Json)
  | obj (fields : List (Bytes × Json))

/-- Decimal rendering of an integer (`serde_json::to_string` of a number). -/
def decIntBytes (i : Int) : Bytes :=
  if i < 0 then 45 :: decBytes i.natAbs else decBytes i.natAbs

/-- One byte of `serde_json` string escaping: quote and backslash get a
backslash escape, the C0 control bytes get the two-character escapes
`\b \t \n \f \r` or a lowercase `\u00xx` escape, everything else (incl.
UTF-8 continuation bytes) passes through. -/
def escByte (b : Nat) : Bytes :=
  if b = 34 then [92, 34]
  else if b = 92 then [92, 92]
  else if b = 8 then [92, 98]
  else if b = 9 then [92, 116]
  else if b = 10 then [92, 110]
  else if b = 12 then [92, 102]
  else if b = 13 then [92, 114]
  else if b < 32 then
    [92, 117, 48, 48,
      (if b / 16 < 10 then 48 + b / 16 else 87 + b / 16),
      (if b % 16 < 10 then 48 + b % 16 else 87 + b % 16)]
  else [b]

def jsonEscape : Bytes → Bytes
  | [] => []
  | b :: bs => escByte b ++ jsonEscape bs

/-- A JSON string literal: quote, escaped bytes, quote. -/
def jsonQuote (s : Bytes) : Bytes := 34 :: (jsonEscape s ++ [34])

/-- Join byte strings with a separator byte. -/
def joinSep (sep : Nat) : List Bytes → Bytes
  | [] => []
  | [x] => x
  | x :: y :: rest => x ++ sep :: joinSep sep (y :: rest)

/-- Byte-lexicographic order on byte strings (Rust `String` `Ord`). -/
def bytesLe : Bytes → Bytes → Bool
  | [], _ => true
  | _ :: _, [] => false
  | a :: as_, b :: bs => if a < b then true else if b < a then false else bytesLe as_ bs

/-- Stable insertion sort by a boolean order. -/
def insertLe {α : Type} (le : α → α → Bool) (x : α) : List α → List α
  | [] => [x]
  | y :: ys => if le x y then x :: y :: ys else y :: insertLe le x ys

def sortLe {α : Type} (le : α → α → Bool) : List α → List α
  | [] => []
  | x :: xs => insertLe le x (sortLe le xs)

mutual

/-- Canonical JSON serialization: sorted keys, no whitespace.  The source
sorts the keys and then serializes each looked-up value; the model
serializes the fields in place and then sorts the rendered pairs by key,
which produces the same bytes since rendering a value does not depend on
its position. -/
def canonical_json : Json → Bytes
  | .null => strBytes "null"
  | .bool true => strBytes "true"
  | .bool false => strBytes "false"
  | .num n => decIntBytes n
  | .str s => jsonQuote s
  | .arr items => 91 :: (joinSep 44 (canonicalList items) ++ [93])
  | .obj fields =>
      123 :: (joinSep 44
        ((sortLe (fun p q : Bytes × Bytes => bytesLe p.1 q.1) (canonicalFields fields)).map
          (fun p => jsonQuote p.1 ++ 58 :: p.2)) ++ [125])

/-- Canonical JSON of each array element. -/
def canonicalList : List Json → List Bytes
  | [] => []
  | j :: js => canonical_json j :: canonicalList js

/-- Canonical JSON of each object field value, keeping the key. -/
def canonicalFields : List (Bytes × Json) → List (Bytes × Bytes)
  | [] => []
  | (k, j) :: fs => (k, canonical_json j) :: canonicalFields fs

end

/-! ### Edit chain (`less-crypto/src/edit_chain.rs`) -/

/-- A single field-level diff (`from` is a Lean keyword, hence `fromVal`
and, for symmetry, `toVal`). -/
structure EditDiff where
  path : Bytes
  fromVal : Json
  toVal : Json
  del : Option Bool

/-- A signed entry in the edit chain. -/
structure EditEntry where
  a : Bytes
  t : Nat
  d : List EditDiff
  p : Option Bytes
  s : Bytes
  k : Json

/-- Abstract third-party signature primitives of the edit chain:
SHA-256, ECDSA P-256 sign (private key, message) and verify (public JWK,
message, signature), and the DID encoding of a public JWK
(`encode_did_key_from_jwk`, whose base58/point internals no claim
inspects). -/
structure SigPrims where
  sha256 : Bytes → Bytes
  ecdsaSign : Bytes → Bytes → Bytes
  ecdsaVerify : Json → Bytes → Bytes → Bool
  didFromJwk : Json → Except CryptoError Bytes

/-- Lowercase hex of a byte string (`format!` with the 02x spec). -/
def uint8_to_hex : Bytes → Bytes
  | [] => []
  | b :: bs =>
    (if b / 16 < 10 then 48 + b / 16 else 87 + b / 16)
      :: (if b % 16 < 10 then 48 + b % 16 else 87 + b % 16)
      :: uint8_to_hex bs

/-- Normalized JSON form of a diff for signing: `del` appears only when
set to true (`json!` builds a sorted serde map; `canonical_json` sorts
anyway). -/
def normalizeDiff (d : EditDiff) : Json :=
  if d.del = some true then
    .obj [(strBytes "path", .str d.path), (strBytes "from", d.fromVal),
      (strBytes "to", d.toVal), (strBytes "del", .bool true)]
  else
    .obj [(strBytes "path", .str d.path), (strBytes "from", d.fromVal),
      (strBytes "to", d.toVal)]

/-- Canonical JSON of the normalized diff array (total in this model; the
source falls back to the literal bytes of an empty array on error). -/
def diffsJson (diffs : List EditDiff) : Bytes :=
  canonical_json (.arr (diffs.map normalizeDiff))

/-- Build the signing message for an edit entry:
null-byte-separated fields after a versioned prefix. -/
def build_edit_signing_message (collection record_id author : Bytes) (timestamp : Nat)
    (prev_hash : Option Bytes) (diffs : List EditDiff) : Bytes :=
  strBytes "less:editlog:v1" ++ 0 :: collection ++ 0 :: record_id ++ 0 :: author
    ++ 0 :: decBytes timestamp ++ 0 :: prev_hash.getD [] ++ 0 :: diffsJson diffs

/-- Sign a new edit entry.  Computes the previous hash from the previous
entry's signature and clamps the timestamp to enforce monotonicity; the
ECDSA sign call is the abstract primitive (its Rust error path is not
reachable for a valid key and is not modelled). -/
def sign_edit_entry (SP : SigPrims) (private_key : Bytes) (public_key_jwk : Json)
    (collection record_id author : Bytes) (timestamp : Nat) (diffs : List EditDiff)
    (prev_entry : Option EditEntry) : EditEntry :=
  let prev_hash := prev_entry.map (fun prev => uint8_to_hex (SP.sha256 prev.s))
  let t := match prev_entry with
    | some prev => max timestamp (prev.t + 1)
    | none => timestamp
  let message := build_edit_signing_message collection record_id author t prev_hash diffs
  ⟨author, t, diffs, prev_hash, SP.ecdsaSign private_key message, public_key_jwk⟩

/-- Verify a single edit entry's signature and DID/key consistency. -/
def verify_edit_entry (SP : SigPrims) (entry : EditEntry) (collection record_id : Bytes) :
    Bool :=
  match SP.didFromJwk entry.k with
  | .error _ => false
  | .ok derived_did =>
    if derived_did ≠ entry.a then false
    else
      SP.ecdsaVerify entry.k
        (build_edit_signing_message collection record_id entry.a entry.t entry.p entry.d)
        entry.s

/-- Tail of the chain verification loop: verify each entry and its hash
link to the signature of the preceding entry. -/
def chainVerify (SP : SigPrims) (collection record_id : Bytes) (prev : EditEntry) :
    List EditEntry → Bool
  | [] => true
  | e :: es =>
    verify_edit_entry SP e collection record_id
      && (e.p == some (uint8_to_hex (SP.sha256 prev.s)))
      && chainVerify SP collection record_id e es

/-- Verify the entire chain: empty chains pass, the first entry must
carry no previous hash, every entry must verify, and every later entry
must hash-link to its predecessor. -/
def verify_edit_chain (SP : SigPrims) (entries : List EditEntry)
    (collection record_id : Bytes) : Bool :=
  match entries with
  | [] => true
  | e0 :: rest =>
    if e0.p.isSome then false
    else verify_edit_entry SP e0 collection record_id
      && chainVerify SP collection record_id e0 rest

/-! ### Membership log (`less-sync-core/src/membership.rs`) -/

inductive MembershipEntryType where
  | delegation
  | accepted
  | declined
  | revoked
  deriving Repr, DecidableEq

def MembershipEntryType.asStr : MembershipEntryType → Bytes
  | .delegation => strBytes "d"
  | .accepted => strBytes "a"
  | .declined => strBytes "x"
  | .revoked => strBytes "r"

/-- Structured payload stored in membership log entries. -/
structure MembershipEntryPayload where
  ucan : Bytes
  entry_type : MembershipEntryType
  signature : Bytes
  signer_public_key : Json
  epoch : Option Nat
  mailbox_id : Option Bytes
  public_key_jwk : Option Json
  signer_handle : Option Bytes
  recipient_handle : Option Bytes

/-- Abstract third-party primitives of the membership log: ECDSA verify,
DID encoding of a JWK, base64url decoding (`base64ct`) and JSON parsing
(`serde_json::from_slice`). -/
structure MemPrims where
  ecdsaVerify : Json → Bytes → Bytes → Bool
  didFromJwk : Json → Except CryptoError Bytes
  b64Decode : Bytes → Except CryptoError Bytes
  jsonParse : Bytes → Except SyncError Json

/-- Build the canonical message to sign for a membership entry. -/
def build_membership_signing_message (entry_type : MembershipEntryType)
    (space_id signer_did ucan signer_handle recipient_handle : Bytes) : Bytes :=
  strBytes "less:membership:v1" ++ 0 :: entry_type.asStr ++ 0 :: space_id
    ++ 0 :: signer_did ++ 0 :: ucan ++ 0 :: signer_handle ++ 0 :: recipient_handle

/-- Parsed issuer/audience DIDs of a UCAN JWT payload. -/
structure ParsedUCAN where
  issuer_did : Bytes
  audience_did : Bytes
  deriving Repr, DecidableEq

/-- Field access on a JSON value (`Value::get`): `none` off objects. -/
def jsonGet (j : Json) (key : Bytes) : Option Json :=
  match j with
  | .obj fields => (fields.find? (fun p => p.1 == key)).map Prod.snd
  | _ => none

/-- Normalize a DID field that may be a string or array. -/
def normalize_did_field : Option Json → Bytes
  | some (.str s) => s
  | some (.arr items) =>
    match items with
    | .str s :: _ => s
    | _ => []
  | _ => []

/-- Parse a UCAN JWT (split on the dot byte) to extract issuer and
audience DIDs from its base64url-decoded payload. -/
def parse_ucan_payload (MP : MemPrims) (ucan : Bytes) : Except SyncError ParsedUCAN :=
  match ucan.splitOn 46 with
  | [_, p1, _] =>
    match MP.b64Decode p1 with
    | .error _ => .error .invalidMembershipEntry
    | .ok payload_bytes =>
      match MP.jsonParse payload_bytes with
      | .error _ => .error .json
      | .ok payload =>
        .ok ⟨normalize_did_field (jsonGet payload (strBytes "iss")),
          normalize_did_field (jsonGet payload (strBytes "aud"))⟩
  | _ => .error .invalidMembershipEntry

/-- Verify a UCAN JWT's ES256 signature over `header.payload`. -/
def verify_ucan_signature (MP : MemPrims) (ucan : Bytes) (public_key_jwk : Json) :
    Except SyncError Bool :=
  match ucan.splitOn 46 with
  | [p0, p1, p2] =>
    match MP.b64Decode p2 with
    | .error _ => .error .invalidMembershipEntry
    | .ok signature_bytes =>
      .ok (MP.ecdsaVerify public_key_jwk (p0 ++ 46 :: p1) signature_bytes)
  | _ => .ok false

/-- Expected signer DID by entry type: delegation/revoked entries must be
signed by the UCAN issuer, accepted/declined by the UCAN audience. -/
def expectedSignerDid (entry_type : MembershipEntryType) (parsed : ParsedUCAN) : Bytes :=
  match entry_type with
  | .delegation | .revoked => parsed.issuer_did
  | .accepted | .declined => parsed.audience_did

/-- Verify a membership entry: the signer's key must encode to the
role-expected DID, the ECDSA signature must verify over the canonical
message, and self-issued UCANs additionally need a valid JWT signature. -/
def verify_membership_entry (MP : MemPrims) (entry : MembershipEntryPayload)
    (space_id : Bytes) : Except SyncError Bool :=
  match parse_ucan_payload MP entry.ucan with
  | .error e => .error e
  | .ok parsed =>
    match MP.didFromJwk entry.signer_public_key with
    | .error e => .error (.crypto e)
    | .ok signer_did =>
      if signer_did ≠ expectedSignerDid entry.entry_type parsed then .ok false
      else
        let message := build_membership_signing_message entry.entry_type space_id
          signer_did entry.ucan (entry.signer_handle.getD [])
          (entry.recipient_handle.getD [])
        if ¬ MP.ecdsaVerify entry.signer_public_key message entry.signature then .ok false
        else if parsed.issuer_did = parsed.audience_did then
          match verify_ucan_signature MP entry.ucan entry.signer_public_key with
          | .error e => .error e
          | .ok ucan_valid => if ¬ ucan_valid then .ok false else .ok true
        else .ok true

/-! ### Chain-key specification and cache invariant -/

/-- One HKDF ratchet step: the key of epoch `e` from the key of `e - 1`
(the success value of `derive_next_epoch_key`). -/
def hkdfStep (P : Prims) (space_id key : Bytes) (e : Nat) : Bytes :=
  P.hkdf key EPOCH_SALT (epochInfo space_id e)

/-- Key after `n` ratchet steps from `bk` at `base`: steps run through
epochs `base + 1 .. base + n`. -/
def chainKeyAux (P : Prims) (space_id bk : Bytes) (base : Nat) : Nat → Bytes
  | 0 => bk
  | n + 1 => hkdfStep P space_id (chainKeyAux P space_id bk base n) (base + n + 1)

/-- The chain key of epoch `e` derived forward from the base key. -/
def chainKey (P : Prims) (space_id bk : Bytes) (base e : Nat) : Bytes :=
  chainKeyAux P space_id bk base (e - base)

/-- Chaining `derive_next_epoch_key` itself (with its error paths) for
`n` steps starting above `start`. -/
def chainDeriveE (P : Prims) (space_id key : Bytes) (start : Nat) :
    Nat → Except CryptoError Bytes
  | 0 => .ok key
  | n + 1 =>
    match chainDeriveE P space_id key start n with
    | .error e => .error e
    | .ok k => derive_next_epoch_key P k space_id (start + n + 1)

/-- Invariant of every reachable `EpochKeyCache`: a 32-byte base key, a
current epoch at or above the (u32) base epoch, and a memoization map
whose every entry is the forward-derived chain key of its epoch.  It
holds for `EpochKeyCache.new` and is preserved by the cache operations. -/
def Wellformed (P : Prims) (st : EpochKeyCache) : Prop :=
  st.base_key.length = 32 ∧
  st.base_epoch ≤ st.current_epoch ∧
  st.current_epoch < 2 ^ 32 ∧
  ∀ e k, st.cache e = some k →
    st.base_epoch < e ∧ k = chainKey P st.space_id st.base_key st.base_epoch e

/-! ### Concrete instances of the abstract primitives

Executable stand-ins used by the witness theorems: injective
length-prefixed tagging in place of AEAD/KW, truncated concatenation in
place of HKDF.  They satisfy the contract propositions assumed of the
real primitives, which lets each contract hypothesis be discharged on
concrete inputs. -/

def toyTag (k iv aad : Bytes) : Bytes :=
  k.length :: (k ++ iv.length :: (iv ++ aad.length :: aad))

def toySeal (k iv aad m : Bytes) : Bytes := m.length :: (m ++ toyTag k iv aad)

def toyOpen (k iv aad : Bytes) : Bytes → Option Bytes
  | [] => none
  | n :: rest =>
    if rest.drop n = toyTag k iv aad ∧ rest.length = n + (toyTag k iv aad).length then
      some (rest.take n)
    else none

def toyKwWrap (kek dek : Bytes) : Bytes := dek ++ (kek ++ List.replicate 8 7).take 8

def toyKwUnwrap (kek w : Bytes) : Option Bytes :=
  if w.length = 40 ∧ w.drop 32 = (kek ++ List.replicate 8 7).take 8 then
    some (w.take 32)
  else none

def toyHkdf (ikm salt info : Bytes) : Bytes :=
  ((ikm ++ salt ++ info) ++ List.replicate 32 0).take 32

def toyPrims : Prims := ⟨toySeal, toyOpen, toyKwWrap, toyKwUnwrap, toyHkdf⟩

/-- Concrete blob produced by `encrypt_outbound` with `toyPrims` on the
witness envelope (collection "tasks", version 1, crdt [1,2,3], no
chain), record id "r1", a fresh cache over a 32-byte base key of 5s at
epoch 0 in space "s1", bucket list [64], DEK of 1s and IV of 2s. -/
def c1Blob : Bytes := [4, 2, 2, 2, 2, 2, 2, 2, 2, 2, 2, 2, 2, 64, 21, 0, 0, 0, 163, 97, 99, 101, 116, 97, 115, 107, 115, 97, 118, 1, 100, 99, 114, 100, 116, 67, 1, 2, 3, 0, 0, 0, 0, 0, 0, 0, 0, 0, 0, 0, 0, 0, 0, 0, 0, 0, 0, 0, 0, 0, 0, 0, 0, 0, 0, 0, 0, 0, 0, 0, 0, 0, 0, 0, 0, 0, 0, 0, 32, 1, 1, 1, 1, 1, 1, 1, 1, 1, 1, 1, 1, 1, 1, 1, 1, 1, 1, 1, 1, 1, 1, 1, 1, 1, 1, 1, 1, 1, 1, 1, 1, 12, 2, 2, 2, 2, 2, 2, 2, 2, 2, 2, 2, 2, 8, 0, 0, 0, 2, 115, 49, 114, 49]

/-- Concrete wrapped DEK of the same witness encryption. -/
def c1Wdek : Bytes := [0, 0, 0, 0, 1, 1, 1, 1, 1, 1, 1, 1, 1, 1, 1, 1, 1, 1, 1, 1, 1, 1, 1, 1, 1, 1, 1, 1, 1, 1, 1, 1, 1, 1, 1, 1, 5, 5, 5, 5, 5, 5, 5, 5]

/-! ## Byte-codec lemmas -/

theorem encBe_length (k : Nat) : ∀ n, (encBe k n).length = k := by
  induction k with
  | zero => intro n; rfl
  | succ k ih => intro n; simp [encBe, ih]

theorem encLe_length (k : Nat) : ∀ n, (encLe k n).length = k := by
  induction k with
  | zero => intro n; rfl
  | succ k ih => intro n; simp [encLe, ih]

theorem takeBe_encBe (k : Nat) : ∀ acc n rest, n < 256 ^ k →
    takeBe acc k (encBe k n ++ rest) = some (acc * 256 ^ k + n, rest) := by
  induction k with
  | zero =>
    intro acc n rest h
    have hn : n = 0 := by simpa using Nat.lt_one_iff.mp (by simpa using h)
    subst hn
    simp [encBe, takeBe]
  | succ k ih =>
    intro acc n rest _
    have hmod : n % 256 ^ k < 256 ^ k := Nat.mod_lt _ (Nat.pos_pow_of_pos k (by omega))
    simp only [encBe, List.cons_append, takeBe, List.append_eq]
    rw [ih _ _ _ hmod]
    have H : 256 ^ k * (n / 256 ^ k) + n % 256 ^ k = n := Nat.div_add_mod n (256 ^ k)
    congr 2
    calc (acc * 256 + n / 256 ^ k) * 256 ^ k + n % 256 ^ k
        = acc * (256 ^ k * 256) + (256 ^ k * (n / 256 ^ k) + n % 256 ^ k) := by ring
      _ = acc * 256 ^ (k + 1) + n := by rw [H, pow_succ]

theorem foldlBe_encBe (k : Nat) : ∀ acc n, n < 256 ^ k →
    List.foldl (fun a b => a * 256 + b) acc (encBe k n) = acc * 256 ^ k + n := by
  induction k with
  | zero =>
    intro acc n h
    have hn : n = 0 := by simpa using Nat.lt_one_iff.mp (by simpa using h)
    subst hn
    simp [encBe]
  | succ k ih =>
    intro acc n _
    have hmod : n % 256 ^ k < 256 ^ k := Nat.mod_lt _ (Nat.pos_pow_of_pos k (by omega))
    simp only [encBe, List.foldl_cons]
    rw [ih _ _ hmod]
    have H : 256 ^ k * (n / 256 ^ k) + n % 256 ^ k = n := Nat.div_add_mod n (256 ^ k)
    calc (acc * 256 + n / 256 ^ k) * 256 ^ k + n % 256 ^ k
        = acc * (256 ^ k * 256) + (256 ^ k * (n / 256 ^ k) + n % 256 ^ k) := by ring
      _ = acc * 256 ^ (k + 1) + n := by rw [H, pow_succ]

theorem decBe_encBe (k n : Nat) (h : n < 256 ^ k) : decBe (encBe k n) = n := by
  simpa [decBe] using foldlBe_encBe k 0 n h

theorem decLe_encLe (k : Nat) : ∀ n, n < 256 ^ k → decLe (encLe k n) = n := by
  induction k with
  | zero =>
    intro n h
    have hn : n = 0 := by simpa using Nat.lt_one_iff.mp (by simpa using h)
    subst hn
    rfl
  | succ k ih =>
    intro n _
    have hdiv : n / 256 < 256 ^ k := by
      rw [Nat.div_lt_iff_lt_mul (by omega)]
      calc n < 256 ^ (k + 1) := by assumption
        _ = 256 ^ k * 256 := by rw [pow_succ]
    simp only [encLe, decLe]
    rw [ih _ hdiv]
    omega

theorem parseHdr_cborHdr (major n : Nat) (rest : Bytes) (hn : n < 2 ^ 64) :
    parseHdr (cborHdr major n ++ rest) = some (major, n, rest) := by
  by_cases h24 : n < 24
  · have h1 : (major * 32 + n) / 32 = major := by omega
    have h2 : (major * 32 + n) % 32 = n := by omega
    simp [cborHdr, h24, parseHdr, h1, h2]
  · by_cases h256 : n < 256
    · have h1 : (major * 32 + 24) / 32 = major := by omega
      have h2 : (major * 32 + 24) % 32 = 24 := by omega
      simp [cborHdr, h24, h256, parseHdr, h1, h2]
    · by_cases h16 : n < 2 ^ 16
      · have h1 : (major * 32 + 25) / 32 = major := by omega
        have h2 : (major * 32 + 25) % 32 = 25 := by omega
        have hb : n < 256 ^ 2 := by norm_num at h16 ⊢; omega
        have hc : cborHdr major n = (major * 32 + 25) :: encBe 2 n := by
          unfold cborHdr
          rw [if_neg h24, if_neg h256, if_pos h16]
        rw [hc, List.cons_append]
        simp only [parseHdr, h1, h2]
        norm_num
        rw [takeBe_encBe 2 0 n rest hb]
        simp
      · by_cases h32 : n < 2 ^ 32
        · have h1 : (major * 32 + 26) / 32 = major := by omega
          have h2 : (major * 32 + 26) % 32 = 26 := by omega
          have hb : n < 256 ^ 4 := by norm_num at h32 ⊢; omega
          have hc : cborHdr major n = (major * 32 + 26) :: encBe 4 n := by
            unfold cborHdr
            rw [if_neg h24, if_neg h256, if_neg h16, if_pos h32]
          rw [hc, List.cons_append]
          simp only [parseHdr, h1, h2]
          norm_num
          rw [takeBe_encBe 4 0 n rest hb]
          simp
        · have h1 : (major * 32 + 27) / 32 = major := by omega
          have h2 : (major * 32 + 27) % 32 = 27 := by omega
          have hb : n < 256 ^ 8 := by norm_num at hn ⊢; omega
          have hc : cborHdr major n = (major * 32 + 27) :: encBe 8 n := by
            unfold cborHdr
            rw [if_neg h24, if_neg h256, if_neg h16, if_neg h32]
          rw [hc, List.cons_append]
          simp only [parseHdr, h1, h2]
          norm_num
          rw [takeBe_encBe 8 0 n rest hb]
          simp

/-- Size bound under which a CBOR item round-trips (u64 arguments). -/
def ItemWf : CborItem → Prop
  | .uint n => n < 2 ^ 64
  | .bstr b => b.length < 2 ^ 64
  | .tstr s => s.length < 2 ^ 64

theorem parseScalar_encodeItem (it : CborItem) (rest : Bytes) (hwf : ItemWf it) :
    parseScalar (encodeItem it ++ rest) = some (it, rest) := by
  cases it with
  | uint n =>
    simp only [encodeItem, parseScalar, parseHdr_cborHdr 0 n rest hwf]
    rfl
  | bstr b =>
    simp only [encodeItem, List.append_assoc, parseScalar,
      parseHdr_cborHdr 2 b.length (b ++ rest) hwf]
    have hle : b.length ≤ (b ++ rest).length := by simp
    simp [hle, List.take_left, List.drop_left]
  | tstr s =>
    simp only [encodeItem, List.append_assoc, parseScalar,
      parseHdr_cborHdr 3 s.length (s ++ rest) hwf]
    have hle : s.length ≤ (s ++ rest).length := by simp
    simp [hle, List.take_left, List.drop_left]

theorem parsePairs_cons (key : Bytes) (v : CborItem) (ps : List (Bytes × CborItem))
    (k : Nat) (body rest : Bytes)
    (hkey : key.length < 2 ^ 64) (hv : ItemWf v)
    (hbody : parsePairs k body = some (ps, rest)) :
    parsePairs (k + 1) (encodeItem (.tstr key) ++ encodeItem v ++ body)
      = some ((key, v) :: ps, rest) := by
  have h1 : parseScalar (encodeItem (.tstr key) ++ (encodeItem v ++ body))
      = some (.tstr key, encodeItem v ++ body) := parseScalar_encodeItem _ _ hkey
  have h2 : parseScalar (encodeItem v ++ body) = some (v, body) :=
    parseScalar_encodeItem _ _ hv
  simp only [parsePairs, List.append_assoc, h1, h2, hbody]
  rfl

/-- Decoding inverts encoding for every envelope whose fields respect the
source's integer widths (`v : u64`, `usize` lengths). -/
theorem decode_encode_envelope (env : BlobEnvelope) (hv : env.v < 2 ^ 64)
    (hc : env.c.length < 2 ^ 64) (hcr : env.crdt.length < 2 ^ 64)
    (hh : ∀ s, env.h = some s → s.length < 2 ^ 64) :
    decode_envelope (encode_envelope env) = .ok env := by
  obtain ⟨c, v, crdt, h⟩ := env
  cases h with
  | none =>
    have hpairs : parsePairs 3
        (encodeItem (.tstr (strBytes "c")) ++ encodeItem (.tstr c)
          ++ (encodeItem (.tstr (strBytes "v")) ++ encodeItem (.uint v)
          ++ (encodeItem (.tstr (strBytes "crdt")) ++ encodeItem (.bstr crdt) ++ [])))
        = some ([(strBytes "c", .tstr c), (strBytes "v", .uint v),
            (strBytes "crdt", .bstr crdt)], []) := by
      apply parsePairs_cons _ _ _ _ _ _ (by decide) (by simpa [ItemWf] using hc)
      apply parsePairs_cons _ _ _ _ _ _ (by decide) (by simpa [ItemWf] using hv)
      apply parsePairs_cons _ _ _ _ _ _ (by decide) (by simpa [ItemWf] using hcr)
      rfl
    have henc : encode_envelope ⟨c, v, crdt, none⟩
        = cborHdr 5 3
          ++ (encodeItem (.tstr (strBytes "c")) ++ encodeItem (.tstr c)
          ++ (encodeItem (.tstr (strBytes "v")) ++ encodeItem (.uint v)
          ++ (encodeItem (.tstr (strBytes "crdt")) ++ encodeItem (.bstr crdt) ++ []))) := by
      simp [encode_envelope]
    rw [decode_envelope, henc, parseHdr_cborHdr 5 3 _ (by norm_num)]
    simp only [hpairs]
    simp [lookupPair, List.find?, strBytes]
    simpa using hv
  | some hs =>
    have hhs : hs.length < 2 ^ 64 := hh hs rfl
    have hpairs : parsePairs 4
        (encodeItem (.tstr (strBytes "c")) ++ encodeItem (.tstr c)
          ++ (encodeItem (.tstr (strBytes "v")) ++ encodeItem (.uint v)
          ++ (encodeItem (.tstr (strBytes "crdt")) ++ encodeItem (.bstr crdt)
          ++ (encodeItem (.tstr (strBytes "h")) ++ encodeItem (.tstr hs) ++ []))))
        = some ([(strBytes "c", .tstr c), (strBytes "v", .uint v),
            (strBytes "crdt", .bstr crdt), (strBytes "h", .tstr hs)], []) := by
      apply parsePairs_cons _ _ _ _ _ _ (by decide) (by simpa [ItemWf] using hc)
      apply parsePairs_cons _ _ _ _ _ _ (by decide) (by simpa [ItemWf] using hv)
      apply parsePairs_cons _ _ _ _ _ _ (by decide) (by simpa [ItemWf] using hcr)
      apply parsePairs_cons _ _ _ _ _ _ (by decide) (by simpa [ItemWf] using hhs)
      rfl
    have henc : encode_envelope ⟨c, v, crdt, some hs⟩
        = cborHdr 5 4
          ++ (encodeItem (.tstr (strBytes "c")) ++ encodeItem (.tstr c)
          ++ (encodeItem (.tstr (strBytes "v")) ++ encodeItem (.uint v)
          ++ (encodeItem (.tstr (strBytes "crdt")) ++ encodeItem (.bstr crdt)
          ++ (encodeItem (.tstr (strBytes "h")) ++ encodeItem (.tstr hs) ++ [])))) := by
      simp [encode_envelope]
    rw [decode_envelope, henc, parseHdr_cborHdr 5 4 _ (by norm_num)]
    simp only [hpairs]
    simp [lookupPair, List.find?, strBytes]
    simpa using hv

/-! ## Padding lemmas -/

theorem unpad_pad (data : Bytes) (buckets : List Nat) (padded : Bytes)
    (hlen : data.length < 2 ^ 32)
    (hpad : pad_to_bucket data buckets = .ok padded) :
    unpad padded buckets = .ok data := by
  by_cases hempty : buckets.isEmpty
  · rw [pad_to_bucket, if_pos hempty] at hpad
    cases hpad
    rw [unpad, if_pos hempty]
  · rw [pad_to_bucket, if_neg hempty] at hpad
    cases hfind : buckets.find? (fun b => decide (LENGTH_PREFIX_SIZE + data.length <= b)) with
    | none => rw [hfind] at hpad; cases hpad
    | some b =>
      rw [hfind] at hpad
      cases hpad
      set rep : Bytes := List.replicate (b - (LENGTH_PREFIX_SIZE + data.length)) 0 with hrep
      set pre : Bytes := encLe 4 (data.length % 2 ^ 32) with hpre
      have hlen4 : pre.length = 4 := encLe_length 4 _
      have htake : (pre ++ (data ++ rep)).take 4 = pre := by
        rw [show (4 : Nat) = pre.length from hlen4.symm]
        exact List.take_left _ _
      have hdrop : (pre ++ (data ++ rep)).drop 4 = data ++ rep := by
        rw [show (4 : Nat) = pre.length from hlen4.symm]
        exact List.drop_left _ _
      have hdec : decLe pre = data.length := by
        rw [hpre, Nat.mod_eq_of_lt hlen]
        have hb : data.length < 256 ^ 4 := by
          have h1 : (2:Nat) ^ 32 = 4294967296 := by norm_num
          have h2 : (256:Nat) ^ 4 = 4294967296 := by norm_num
          omega
        exact decLe_encLe 4 _ hb
      have htotal : (pre ++ (data ++ rep)).length = 4 + (data.length + rep.length) := by
        simp [hlen4]
      rw [List.append_assoc]
      rw [unpad, if_neg hempty]
      have hnotshort : ¬ (pre ++ (data ++ rep)).length < LENGTH_PREFIX_SIZE := by
        rw [htotal]; unfold LENGTH_PREFIX_SIZE; omega
      rw [if_neg hnotshort]
      simp only [LENGTH_PREFIX_SIZE, htake, hdec, htotal, hdrop]
      rw [if_neg (by omega)]
      congr 1
      rw [List.take_append_of_le_length (by omega), List.take_length]

/-! ## Epoch-cache lemmas -/

theorem chainKeyAux_length (P : Prims) (sid bk : Bytes) (base : Nat)
    (hbk : bk.length = 32) (hlen : HkdfLen P) :
    ∀ n, (chainKeyAux P sid bk base n).length = 32 := by
  intro n
  cases n with
  | zero => exact hbk
  | succ n => exact hlen _ _ _

theorem chainKey_length (P : Prims) (sid bk : Bytes) (base e : Nat)
    (hbk : bk.length = 32) (hlen : HkdfLen P) :
    (chainKey P sid bk base e).length = 32 :=
  chainKeyAux_length P sid bk base hbk hlen _

theorem chainKey_base (P : Prims) (sid bk : Bytes) (base : Nat) :
    chainKey P sid bk base base = bk := by
  simp [chainKey, chainKeyAux]

theorem chainKey_step (P : Prims) (sid bk : Bytes) (base s : Nat) (hs : base < s) :
    hkdfStep P sid (chainKey P sid bk base (s - 1)) s = chainKey P sid bk base s := by
  have h1 : s - base = (s - 1 - base) + 1 := by omega
  have h2 : base + (s - 1 - base) + 1 = s := by omega
  rw [chainKey, chainKey, h1, chainKeyAux, h2]

theorem derive_next_ok (P : Prims) (key sid : Bytes) (e : Nat)
    (hkey : key.length = 32) (he : 1 ≤ e) :
    derive_next_epoch_key P key sid e = .ok (hkdfStep P sid key e) := by
  rw [derive_next_epoch_key, if_neg (by simp [hkey, AES_KEY_LENGTH]), if_neg (by omega)]
  rfl

theorem chainDeriveE_ok (P : Prims) (sid bk : Bytes) (base : Nat)
    (hbk : bk.length = 32) (hlen : HkdfLen P) :
    ∀ n, chainDeriveE P sid bk base n = .ok (chainKeyAux P sid bk base n) := by
  intro n
  induction n with
  | zero => rfl
  | succ n ih =>
    rw [chainDeriveE, ih]
    simp only
    rw [derive_next_ok P _ sid _ (chainKeyAux_length P sid bk base hbk hlen n) (by omega)]
    rfl

theorem kekWalk_spec (P : Prims) (sid bk : Bytes) (base : Nat)
    (hbk : bk.length = 32) (hlen : HkdfLen P) :
    ∀ len s key cache,
      base + 1 ≤ s →
      key = chainKey P sid bk base (s - 1) →
      (∀ e k, cache e = some k → base < e ∧ k = chainKey P sid bk base e) →
      ∃ cache2,
        kekWalk P sid key cache (List.range' s len)
          = .ok (chainKey P sid bk base (s + len - 1), cache2)
        ∧ (∀ e k, cache2 e = some k → base < e ∧ k = chainKey P sid bk base e)
        ∧ (∀ e, s ≤ e → e < s + len → cache2 e = some (chainKey P sid bk base e))
        ∧ (∀ e k, cache e = some k → cache2 e = some k) := by
  intro len
  induction len with
  | zero =>
    intro s key cache _ hkey hcache
    refine ⟨cache, ?_, hcache, ?_, ?_⟩
    · simp [List.range', kekWalk, hkey]
    · intro e h1 h2; omega
    · intro e k h; exact h
  | succ len ih =>
    intro s key cache hs hkey hcache
    rw [List.range'_succ]
    cases hc : cache s with
    | some cached =>
      obtain ⟨_, hcval⟩ := hcache s cached hc
      obtain ⟨cache2, hwalk, hc2, hrange, hmono⟩ :=
        ih (s + 1) cached cache (by omega) (by simpa using hcval) hcache
      refine ⟨cache2, ?_, hc2, ?_, hmono⟩
      · have harith : s + 1 + len - 1 = s + (len + 1) - 1 := by omega
        rw [harith] at hwalk
        rw [kekWalk, hc]
        simp only [hwalk]
      · intro e h1 h2
        by_cases he : e = s
        · rw [he, hmono s cached hc, hcval]
        · exact hrange e (by omega) (by omega)
    | none =>
      have hklen : key.length = 32 := by
        rw [hkey]; exact chainKey_length P sid bk base _ hbk hlen
      have hderive : derive_next_epoch_key P key sid s
          = .ok (hkdfStep P sid key s) := derive_next_ok P key sid s hklen (by omega)
      have hnext : hkdfStep P sid key s = chainKey P sid bk base s := by
        rw [hkey]; exact chainKey_step P sid bk base s (by omega)
      have hcache' : ∀ e k,
          (fun x => if x = s then some (hkdfStep P sid key s) else cache x) e = some k →
          base < e ∧ k = chainKey P sid bk base e := by
        intro e k h
        simp only at h
        by_cases he : e = s
        · rw [if_pos he] at h
          have hk := Option.some.inj h
          exact ⟨by omega, by rw [he, ← hk, hnext]⟩
        · rw [if_neg he] at h
          exact hcache e k h
      obtain ⟨cache2, hwalk, hc2, hrange, hmono⟩ :=
        ih (s + 1) (hkdfStep P sid key s)
          (fun x => if x = s then some (hkdfStep P sid key s) else cache x)
          (by omega) (by simpa using hnext) hcache'
      refine ⟨cache2, ?_, hc2, ?_, ?_⟩
      · have harith : s + 1 + len - 1 = s + (len + 1) - 1 := by omega
        rw [harith] at hwalk
        rw [kekWalk, hc]
        simp only [hderive, hwalk]
      · intro e h1 h2
        by_cases he : e = s
        · rw [he, hmono s (hkdfStep P sid key s) (by simp), hnext]
        · exact hrange e (by omega) (by omega)
      · intro e k h
        apply hmono
        have he : e ≠ s := by
          intro heq; subst heq; rw [hc] at h; cases h
        simp [if_neg he, h]

theorem get_kek_ok (P : Prims) (st : EpochKeyCache) (epoch : Nat)
    (hwf : Wellformed P st) (hlen : HkdfLen P)
    (hge : st.base_epoch ≤ epoch) (hle : epoch - st.base_epoch ≤ MAX_EPOCH_ADVANCE) :
    ∃ st2, get_kek P st epoch
        = .ok (chainKey P st.space_id st.base_key st.base_epoch epoch, st2)
      ∧ Wellformed P st2 ∧ st2.base_key = st.base_key ∧ st2.base_epoch = st.base_epoch
      ∧ st2.space_id = st.space_id ∧ st2.current_epoch = st.current_epoch := by
  obtain ⟨hbk, hbc, hc32, hcache⟩ := hwf
  by_cases heq : epoch = st.base_epoch
  · subst heq
    refine ⟨st, ?_, ⟨hbk, hbc, hc32, hcache⟩, rfl, rfl, rfl, rfl⟩
    rw [get_kek, if_pos rfl, chainKey_base]
  · have hlt : ¬ epoch < st.base_epoch := by omega
    rw [get_kek, if_neg heq, if_neg hlt, if_neg (by omega)]
    cases hc : st.cache epoch with
    | some k =>
      obtain ⟨_, hkval⟩ := hcache epoch k hc
      exact ⟨st, by rw [hkval], ⟨hbk, hbc, hc32, hcache⟩, rfl, rfl, rfl, rfl⟩
    | none =>
      obtain ⟨cache2, hwalk, hc2, hrange, _⟩ :=
        kekWalk_spec P st.space_id st.base_key st.base_epoch hbk hlen
          (epoch - st.base_epoch) (st.base_epoch + 1) st.base_key st.cache
          (by omega) (by simp [chainKey, chainKeyAux]) hcache
      have harith : st.base_epoch + 1 + (epoch - st.base_epoch) - 1 = epoch := by omega
      rw [harith] at hwalk
      have hfinal : cache2 epoch
          = some (chainKey P st.space_id st.base_key st.base_epoch epoch) :=
        hrange epoch (by omega) (by omega)
      refine ⟨{ st with cache := cache2 }, ?_, ⟨hbk, hbc, hc32, hc2⟩, rfl, rfl, rfl, rfl⟩
      simp only [hwalk, hfinal]

/-! ## Soundness of the concrete primitive instances -/

theorem toyTag_inj_aad (k iv aad aad2 : Bytes) (h : toyTag k iv aad = toyTag k iv aad2) :
    aad = aad2 := by
  simp only [toyTag, List.cons.injEq] at h
  obtain ⟨-, h⟩ := h
  have h2 := List.append_cancel_left h
  simp only [List.cons.injEq] at h2
  obtain ⟨-, h2⟩ := h2
  have h3 := List.append_cancel_left h2
  simp only [List.cons.injEq] at h3
  exact h3.2

theorem toyGcm_roundtrip : GcmRoundtrip toyPrims := by
  intro k iv aad m
  show toyOpen k iv aad (toySeal k iv aad m) = some m
  simp [toySeal, toyOpen, List.drop_left, List.take_left]

theorem toyGcm_minlen : GcmMinLen toyPrims := by
  intro k iv aad m hk
  show 16 ≤ (toySeal k iv aad m).length
  simp [toySeal, toyTag, hk]
  omega

theorem toyGcm_auth : GcmAuth toyPrims := by
  intro k iv aad aad2 m hne
  show toyOpen k iv aad2 (toySeal k iv aad m) = none
  simp only [toySeal, toyOpen]
  rw [if_neg]
  rintro ⟨h1, -⟩
  rw [List.drop_left] at h1
  exact hne (toyTag_inj_aad k iv aad2 aad h1.symm)

theorem toyKw_roundtrip : KwRoundtrip toyPrims := by
  intro kek dek hdek
  show toyKwUnwrap kek (toyKwWrap kek dek) = some dek
  have hlen : ((kek ++ List.replicate 8 7).take 8).length = 8 := by
    simp
  have hdrop : (dek ++ (kek ++ List.replicate 8 7).take 8).drop 32
      = (kek ++ List.replicate 8 7).take 8 := by
    rw [show (32 : Nat) = dek.length from hdek.symm]
    exact List.drop_left _ _
  have htake : (dek ++ (kek ++ List.replicate 8 7).take 8).take 32 = dek := by
    rw [show (32 : Nat) = dek.length from hdek.symm]
    exact List.take_left _ _
  rw [toyKwWrap, toyKwUnwrap, if_pos]
  · rw [htake]
  · constructor
    · rw [List.length_append, hdek, hlen]
    · exact hdrop

theorem toyKw_wraplen : KwWrapLen toyPrims := by
  intro kek dek hdek
  show (toyKwWrap kek dek).length = 40
  simp [toyKwWrap, hdek]

theorem toyKw_unwraplen : KwUnwrapLen toyPrims := by
  intro kek w d h
  simp only [toyPrims, toyKwUnwrap] at h
  by_cases hc : w.length = 40 ∧ w.drop 32 = (kek ++ List.replicate 8 7).take 8
  · rw [if_pos hc] at h
    cases h
    simp
    omega
  · rw [if_neg hc] at h
    cases h

theorem toyHkdf_len : HkdfLen toyPrims := by
  intro ikm salt info
  show (toyHkdf ikm salt info).length = 32
  simp [toyHkdf]
  omega

/-! ## get_kek bounds inversion -/

theorem get_kek_bounds (P : Prims) (st : EpochKeyCache) (epoch : Nat) (k : Bytes)
    (st2 : EpochKeyCache) (h : get_kek P st epoch = .ok (k, st2)) :
    st.base_epoch ≤ epoch ∧ epoch - st.base_epoch ≤ MAX_EPOCH_ADVANCE := by
  by_cases h1 : epoch = st.base_epoch
  · constructor <;> omega
  · by_cases h2 : epoch < st.base_epoch
    · rw [get_kek, if_neg h1, if_pos h2] at h
      cases h
    · by_cases h3 : MAX_EPOCH_ADVANCE < epoch - st.base_epoch
      · rw [get_kek, if_neg h1, if_neg h2, if_pos h3] at h
        cases h
      · exact ⟨by omega, by omega⟩

/-! ## Claim theorems -/

/-- C5: for an `EpochKeyCache` with base epoch `b`: `get_kek b` returns
the base key unchanged; `get_kek e` with `e < b` fails with
`BackwardDerivation`; `get_kek e` with `e - b > 1000` fails with
`EpochTooFarAhead`; and for `b < e ≤ b + 1000` it succeeds and returns
exactly the key obtained by chaining `derive_next_epoch_key` from the
base key through epochs `b+1 .. e`, on every reachable (wellformed)
cache state — hence identically on repeated calls regardless of which
epochs were queried before — and the resulting state is wellformed
again. -/
theorem c5_get_kek_spec (P : Prims) (st : EpochKeyCache) (e : Nat) :
    (get_kek P st st.base_epoch = .ok (st.base_key, st))
    ∧ (e < st.base_epoch →
        get_kek P st e = .error (.backwardDerivation e st.base_epoch))
    ∧ (MAX_EPOCH_ADVANCE < e - st.base_epoch →
        get_kek P st e
          = .error (.epochTooFarAhead e st.base_epoch (e - st.base_epoch) MAX_EPOCH_ADVANCE))
    ∧ (Wellformed P st → HkdfLen P → st.base_epoch < e →
        e ≤ st.base_epoch + MAX_EPOCH_ADVANCE →
        (get_kek P st e).map Prod.fst
            = (chainDeriveE P st.space_id st.base_key st.base_epoch
                (e - st.base_epoch)).mapError .crypto
          ∧ ∀ k st2, get_kek P st e = .ok (k, st2) → Wellformed P st2) := by
  refine ⟨?_, ?_, ?_, ?_⟩
  · rw [get_kek, if_pos rfl]
  · intro hlt
    rw [get_kek, if_neg (by omega), if_pos hlt]
  · intro hfar
    rw [get_kek, if_neg (by omega), if_neg (by omega), if_pos hfar]
  · intro hwf hlen hgt hle
    obtain ⟨st2, hok, hwf2, -, -, -, -⟩ :=
      get_kek_ok P st e hwf hlen (by omega) (by omega)
    constructor
    · rw [hok, chainDeriveE_ok P st.space_id st.base_key st.base_epoch hwf.1 hlen]
      rfl
    · intro k st3 h3
      rw [hok] at h3
      cases h3
      exact hwf2

/-- Witness for C5: the fourth part evaluated on a fresh cache at base
epoch 0 with requested epoch 2, and the two failure parts evaluated on
concrete backward / too-far-ahead epochs. -/
theorem c5_get_kek_spec_witness :
    ((get_kek toyPrims (EpochKeyCache.new (List.replicate 32 0) 0 []) 2).map Prod.fst
      = (chainDeriveE toyPrims [] (List.replicate 32 0) 0 2).mapError .crypto)
    ∧ (get_kek toyPrims (EpochKeyCache.new (List.replicate 32 0) 5 []) 3
      = .error (.backwardDerivation 3 5))
    ∧ (get_kek toyPrims (EpochKeyCache.new (List.replicate 32 0) 0 []) 1001
      = .error (.epochTooFarAhead 1001 0 1001 MAX_EPOCH_ADVANCE)) := by
  have hwf : Wellformed toyPrims (EpochKeyCache.new (List.replicate 32 0) 0 []) := by
    refine ⟨by decide, le_refl _, by decide, ?_⟩
    intro e k h
    cases h
  refine ⟨?_, ?_, ?_⟩
  · exact ((c5_get_kek_spec toyPrims (EpochKeyCache.new (List.replicate 32 0) 0 []) 2).2.2.2
      hwf toyHkdf_len (by decide) (by decide)).1
  · exact (c5_get_kek_spec toyPrims (EpochKeyCache.new (List.replicate 32 0) 5 []) 3).2.1
      (by decide)
  · exact (c5_get_kek_spec toyPrims
      (EpochKeyCache.new (List.replicate 32 0) 0 []) 1001).2.2.1 (by decide)

theorem unpad_pad_bounded (data : Bytes) (buckets : List Nat) (padded : Bytes)
    (hb : ∀ b ∈ buckets, b < 2 ^ 32)
    (hpad : pad_to_bucket data buckets = .ok padded) :
    unpad padded buckets = .ok data := by
  by_cases hempty : buckets.isEmpty
  · rw [pad_to_bucket, if_pos hempty] at hpad
    cases hpad
    rw [unpad, if_pos hempty]
  · cases hfind : buckets.find? (fun b => decide (LENGTH_PREFIX_SIZE + data.length ≤ b)) with
    | none =>
      rw [pad_to_bucket, if_neg hempty, hfind] at hpad
      cases hpad
    | some b =>
      have hmem : b ∈ buckets := List.mem_of_find?_eq_some hfind
      have hcond : LENGTH_PREFIX_SIZE + data.length ≤ b := by
        have := List.find?_some hfind
        simpa using this
      have hlen : data.length < 2 ^ 32 := by
        have := hb b hmem
        unfold LENGTH_PREFIX_SIZE at hcond
        omega
      exact unpad_pad data buckets padded hlen hpad

/-- C1: the transport round-trip.  If `encrypt_outbound` returns
`(blob, wrapped_dek)` for an envelope under some record id and a
reachable cache state, then `decrypt_inbound` on that blob and wrapped
DEK with the same record id and buckets, against a cache built from the
same base key, base epoch and space id, succeeds and returns the
original envelope.  The abstract AEAD / AES-KW / HKDF primitives are
assumed to satisfy their round-trip and length contracts; envelope
fields and buckets respect the source's u64/usize widths, and the DEK
and IV are the 32- and 12-byte random values the source generates. -/
theorem c1_transport_roundtrip (P : Prims) (env : BlobEnvelope) (record_id : Bytes)
    (st1 st2 : EpochKeyCache) (buckets : List Nat) (dek iv blob wdek : Bytes)
    (hGR : GcmRoundtrip P) (hGL : GcmMinLen P) (hKR : KwRoundtrip P)
    (hKW : KwWrapLen P) (hHL : HkdfLen P)
    (hdek : dek.length = 32) (hiv : iv.length = 12)
    (hwf1 : Wellformed P st1) (hwf2 : Wellformed P st2)
    (hkey : st2.base_key = st1.base_key) (hbase : st2.base_epoch = st1.base_epoch)
    (hsid : st2.space_id = st1.space_id)
    (hbuckets : ∀ b ∈ buckets, b < 2 ^ 32)
    (hv : env.v < 2 ^ 64) (hc : env.c.length < 2 ^ 64) (hcr : env.crdt.length < 2 ^ 64)
    (hh : ∀ s, env.h = some s → s.length < 2 ^ 64)
    (henc : (encrypt_outbound P env record_id st1 buckets dek iv).map Prod.fst
      = .ok (blob, wdek)) :
    (decrypt_inbound P blob wdek record_id st2 buckets).map Prod.fst = .ok env := by
  rw [encrypt_outbound] at henc
  cases hpad : pad_to_bucket (encode_envelope env) buckets with
  | error e => simp [hpad, Except.map] at henc
  | ok padded =>
  simp only [hpad] at henc
  cases hget : get_kek P st1 st1.current_epoch with
  | error e => simp [hget, Except.map] at henc
  | ok pr =>
  obtain ⟨kek, st1x⟩ := pr
  simp only [hget] at henc
  obtain ⟨hce_ge, hce_le⟩ := get_kek_bounds P st1 st1.current_epoch kek st1x hget
  have hkek : kek = chainKey P st1.space_id st1.base_key st1.base_epoch st1.current_epoch := by
    obtain ⟨sty, hoky, -, -, -, -, -⟩ :=
      get_kek_ok P st1 st1.current_epoch hwf1 hHL hce_ge hce_le
    have hpair := Except.ok.inj (hget.symm.trans hoky)
    exact congrArg Prod.fst hpair
  have hkeklen : kek.length = 32 := by
    rw [hkek]
    exact chainKey_length P _ _ _ _ hwf1.1 hHL
  have hencv4 : encrypt_v4 P padded dek iv (some ⟨st1.space_id, record_id⟩)
      = .ok (CURRENT_VERSION
          :: (iv ++ P.gcmSeal dek iv (build_aad ⟨st1.space_id, record_id⟩) padded)) := by
    rw [encrypt_v4, if_neg (by simp [hdek, AES_KEY_LENGTH])]
  have hwrap : wrap_dek P dek kek st1.current_epoch
      = .ok (encBe 4 (st1.current_epoch % 2 ^ 32) ++ P.kwWrap kek dek) := by
    rw [wrap_dek, if_neg (by simp [hdek, AES_KEY_LENGTH]),
      if_neg (by simp [hkeklen, AES_KEY_LENGTH])]
  simp only [hencv4, hwrap, Except.map] at henc
  have hpair := Except.ok.inj henc
  have hblob : blob = CURRENT_VERSION
      :: (iv ++ P.gcmSeal dek iv (build_aad ⟨st1.space_id, record_id⟩) padded) :=
    (congrArg Prod.fst hpair).symm
  have hwdek : wdek = encBe 4 (st1.current_epoch % 2 ^ 32) ++ P.kwWrap kek dek :=
    (congrArg Prod.snd hpair).symm
  have hce32 : st1.current_epoch < 2 ^ 32 := hwf1.2.2.1
  have hmod : st1.current_epoch % 2 ^ 32 = st1.current_epoch := Nat.mod_eq_of_lt hce32
  have henc4len : (encBe 4 (st1.current_epoch % 2 ^ 32)).length = 4 := encBe_length 4 _
  have hwdektake : wdek.take 4 = encBe 4 (st1.current_epoch % 2 ^ 32) := by
    rw [hwdek, show (4 : Nat) = (encBe 4 (st1.current_epoch % 2 ^ 32)).length
      from henc4len.symm]
    exact List.take_left _ _
  have hwdekdrop : wdek.drop 4 = P.kwWrap kek dek := by
    rw [hwdek, show (4 : Nat) = (encBe 4 (st1.current_epoch % 2 ^ 32)).length
      from henc4len.symm]
    exact List.drop_left _ _
  have hdecbe : decBe (wdek.take 4) = st1.current_epoch := by
    rw [hwdektake, decBe_encBe 4 _ (by
      have : st1.current_epoch % 2 ^ 32 < 2 ^ 32 := Nat.mod_lt _ (by norm_num)
      norm_num at this ⊢
      omega)]
    exact hmod
  have hwdeklen : wdek.length = 44 := by
    rw [hwdek, List.length_append, henc4len, hKW kek dek hdek]
  have hpeek : peek_epoch wdek = .ok st1.current_epoch := by
    rw [peek_epoch, if_neg (by omega), hdecbe]
  have hget2 := get_kek_ok P st2 st1.current_epoch hwf2 hHL
    (by omega) (by omega)
  obtain ⟨st2x, hok2, -, -, -, -, -⟩ := hget2
  rw [hsid, hkey, hbase, ← hkek] at hok2
  have hunwrap : unwrap_dek P wdek kek = .ok (dek, st1.current_epoch) := by
    rw [unwrap_dek, if_neg (by simp [hwdeklen, WRAPPED_DEK_SIZE]),
      if_neg (by simp [hkeklen, AES_KEY_LENGTH]), hwdekdrop, hKR kek dek hdek, hdecbe]
  have hseal : 16 ≤ (P.gcmSeal dek iv (build_aad ⟨st1.space_id, record_id⟩) padded).length :=
    hGL _ _ _ _ hdek
  have hctx : (⟨st2.space_id, record_id⟩ : EncryptionContext)
      = ⟨st1.space_id, record_id⟩ := by rw [hsid]
  have hdec4 : decrypt_v4 P blob dek (some ⟨st2.space_id, record_id⟩) = .ok padded := by
    rw [hctx, hblob, decrypt_v4, if_neg (by simp [hdek, AES_KEY_LENGTH]),
      if_neg (by simp [AES_GCM_IV_LENGTH, AES_GCM_TAG_LENGTH, hiv]; omega)]
    have hvers : ¬ ¬ SUPPORTED_VERSIONS.contains CURRENT_VERSION = true := by decide
    rw [if_neg hvers]
    have htakeiv : (iv ++ P.gcmSeal dek iv (build_aad ⟨st1.space_id, record_id⟩) padded).take
        AES_GCM_IV_LENGTH = iv := by
      rw [show AES_GCM_IV_LENGTH = iv.length from hiv.symm]
      exact List.take_left _ _
    have hdropiv : (iv ++ P.gcmSeal dek iv (build_aad ⟨st1.space_id, record_id⟩) padded).drop
        AES_GCM_IV_LENGTH
        = P.gcmSeal dek iv (build_aad ⟨st1.space_id, record_id⟩) padded := by
      rw [show AES_GCM_IV_LENGTH = iv.length from hiv.symm]
      exact List.drop_left _ _
    simp only [htakeiv, hdropiv, hGR dek iv (build_aad ⟨st1.space_id, record_id⟩) padded]
  have hunpad : unpad padded buckets = .ok (encode_envelope env) :=
    unpad_pad_bounded _ buckets padded hbuckets hpad
  have hdecode : decode_envelope (encode_envelope env) = .ok env :=
    decode_encode_envelope env hv hc hcr hh
  rw [decrypt_inbound, hpeek]
  simp only [hok2, hunwrap, hdec4, hunpad, hdecode, Except.map]

theorem wf_new (P : Prims) (bk : Bytes) (base : Nat) (sid : Bytes)
    (hbk : bk.length = 32) (hb32 : base < 2 ^ 32) :
    Wellformed P (EpochKeyCache.new bk base sid) := by
  refine ⟨hbk, le_refl _, hb32, ?_⟩
  intro e k h
  exact nomatch h

/-- Witness for C1: a concrete encryption with the executable toy
primitives and its successful decryption back to the original
envelope. -/
theorem c1_transport_roundtrip_witness :
    ((encrypt_outbound toyPrims ⟨strBytes "tasks", 1, [1, 2, 3], none⟩ (strBytes "r1")
        (EpochKeyCache.new (List.replicate 32 5) 0 (strBytes "s1")) [64]
        (List.replicate 32 1) (List.replicate 12 2)).map Prod.fst
      = .ok (c1Blob, c1Wdek))
    ∧ ((decrypt_inbound toyPrims c1Blob c1Wdek (strBytes "r1")
        (EpochKeyCache.new (List.replicate 32 5) 0 (strBytes "s1")) [64]).map Prod.fst
      = .ok ⟨strBytes "tasks", 1, [1, 2, 3], none⟩) := by
  have henc : (encrypt_outbound toyPrims ⟨strBytes "tasks", 1, [1, 2, 3], none⟩
      (strBytes "r1") (EpochKeyCache.new (List.replicate 32 5) 0 (strBytes "s1")) [64]
      (List.replicate 32 1) (List.replicate 12 2)).map Prod.fst
      = .ok (c1Blob, c1Wdek) := by decide
  refine ⟨henc, ?_⟩
  exact c1_transport_roundtrip toyPrims ⟨strBytes "tasks", 1, [1, 2, 3], none⟩
    (strBytes "r1") (EpochKeyCache.new (List.replicate 32 5) 0 (strBytes "s1"))
    (EpochKeyCache.new (List.replicate 32 5) 0 (strBytes "s1")) [64]
    (List.replicate 32 1) (List.replicate 12 2) c1Blob c1Wdek
    toyGcm_roundtrip toyGcm_minlen toyKw_roundtrip toyKw_wraplen toyHkdf_len
    (by decide) (by decide)
    (wf_new toyPrims (List.replicate 32 5) 0 (strBytes "s1") (by decide) (by decide))
    (wf_new toyPrims (List.replicate 32 5) 0 (strBytes "s1") (by decide) (by decide))
    rfl rfl rfl (by decide) (by decide) (by decide) (by decide)
    (fun s hs => nomatch hs) henc

/-- Inversion of a successful `encrypt_outbound`: the padded envelope,
the chain KEK of the current epoch, and the exact shapes of the returned
blob and wrapped DEK. -/
theorem encrypt_outbound_inv (P : Prims) (env : BlobEnvelope) (rid : Bytes)
    (st1 : EpochKeyCache) (buckets : List Nat) (dek iv blob wdek : Bytes)
    (hHL : HkdfLen P) (hdek : dek.length = 32) (hwf1 : Wellformed P st1)
    (henc : (encrypt_outbound P env rid st1 buckets dek iv).map Prod.fst
      = .ok (blob, wdek)) :
    ∃ padded kek,
      pad_to_bucket (encode_envelope env) buckets = .ok padded
      ∧ kek = chainKey P st1.space_id st1.base_key st1.base_epoch st1.current_epoch
      ∧ kek.length = 32
      ∧ st1.base_epoch ≤ st1.current_epoch
      ∧ st1.current_epoch - st1.base_epoch ≤ MAX_EPOCH_ADVANCE
      ∧ blob = CURRENT_VERSION
          :: (iv ++ P.gcmSeal dek iv (build_aad ⟨st1.space_id, rid⟩) padded)
      ∧ wdek = encBe 4 (st1.current_epoch % 2 ^ 32) ++ P.kwWrap kek dek := by
  rw [encrypt_outbound] at henc
  cases hpad : pad_to_bucket (encode_envelope env) buckets with
  | error e => simp [hpad, Except.map] at henc
  | ok padded =>
  simp only [hpad] at henc
  cases hget : get_kek P st1 st1.current_epoch with
  | error e => simp [hget, Except.map] at henc
  | ok pr =>
  obtain ⟨kek, st1x⟩ := pr
  simp only [hget] at henc
  obtain ⟨hce_ge, hce_le⟩ := get_kek_bounds P st1 st1.current_epoch kek st1x hget
  have hkek : kek = chainKey P st1.space_id st1.base_key st1.base_epoch st1.current_epoch := by
    obtain ⟨sty, hoky, -, -, -, -, -⟩ :=
      get_kek_ok P st1 st1.current_epoch hwf1 hHL hce_ge hce_le
    exact congrArg Prod.fst (Except.ok.inj (hget.symm.trans hoky))
  have hkeklen : kek.length = 32 := by
    rw [hkek]
    exact chainKey_length P _ _ _ _ hwf1.1 hHL
  have hencv4 : encrypt_v4 P padded dek iv (some ⟨st1.space_id, rid⟩)
      = .ok (CURRENT_VERSION
          :: (iv ++ P.gcmSeal dek iv (build_aad ⟨st1.space_id, rid⟩) padded)) := by
    rw [encrypt_v4, if_neg (by simp [hdek, AES_KEY_LENGTH])]
  have hwrap : wrap_dek P dek kek st1.current_epoch
      = .ok (encBe 4 (st1.current_epoch % 2 ^ 32) ++ P.kwWrap kek dek) := by
    rw [wrap_dek, if_neg (by simp [hdek, AES_KEY_LENGTH]),
      if_neg (by simp [hkeklen, AES_KEY_LENGTH])]
  simp only [hencv4, hwrap, Except.map] at henc
  have hpair := Except.ok.inj henc
  exact ⟨padded, kek, rfl, hkek, hkeklen, hce_ge, hce_le,
    (congrArg Prod.fst hpair).symm, (congrArg Prod.snd hpair).symm⟩

/-- Different record ids produce different AADs in the same space. -/
theorem build_aad_ne (sid a b : Bytes) (h : a ≠ b) :
    build_aad ⟨sid, a⟩ ≠ build_aad ⟨sid, b⟩ := by
  intro hc
  simp only [build_aad] at hc
  exact h (List.append_cancel_left hc)

/-- C2: record binding.  A blob encrypted under record id A, decrypted
with any different record id B but otherwise identical key material
(cache built from the same base key, base epoch and space id) and the
same buckets, fails with the opaque decryption-failure error: the
record id enters the AAD, and the AEAD rejects a changed AAD. -/
theorem c2_record_binding (P : Prims) (env : BlobEnvelope) (recA recB : Bytes)
    (st1 st2 : EpochKeyCache) (buckets : List Nat) (dek iv blob wdek : Bytes)
    (hGA : GcmAuth P) (hGL : GcmMinLen P) (hKR : KwRoundtrip P)
    (hKW : KwWrapLen P) (hHL : HkdfLen P)
    (hdek : dek.length = 32) (hiv : iv.length = 12)
    (hwf1 : Wellformed P st1) (hwf2 : Wellformed P st2)
    (hkey : st2.base_key = st1.base_key) (hbase : st2.base_epoch = st1.base_epoch)
    (hsid : st2.space_id = st1.space_id)
    (hne : recA ≠ recB)
    (henc : (encrypt_outbound P env recA st1 buckets dek iv).map Prod.fst
      = .ok (blob, wdek)) :
    decrypt_inbound P blob wdek recB st2 buckets
      = .error (.crypto .decryptionFailed) := by
  obtain ⟨padded, kek, hpad, hkek, hkeklen, hce_ge, hce_le, hblob, hwdek⟩ :=
    encrypt_outbound_inv P env recA st1 buckets dek iv blob wdek hHL hdek hwf1 henc
  have hce32 : st1.current_epoch < 2 ^ 32 := hwf1.2.2.1
  have hmod : st1.current_epoch % 2 ^ 32 = st1.current_epoch := Nat.mod_eq_of_lt hce32
  have henc4len : (encBe 4 (st1.current_epoch % 2 ^ 32)).length = 4 := encBe_length 4 _
  have hwdektake : wdek.take 4 = encBe 4 (st1.current_epoch % 2 ^ 32) := by
    rw [hwdek, show (4 : Nat) = (encBe 4 (st1.current_epoch % 2 ^ 32)).length
      from henc4len.symm]
    exact List.take_left _ _
  have hwdekdrop : wdek.drop 4 = P.kwWrap kek dek := by
    rw [hwdek, show (4 : Nat) = (encBe 4 (st1.current_epoch % 2 ^ 32)).length
      from henc4len.symm]
    exact List.drop_left _ _
  have hdecbe : decBe (wdek.take 4) = st1.current_epoch := by
    rw [hwdektake, decBe_encBe 4 _ (by
      have : st1.current_epoch % 2 ^ 32 < 2 ^ 32 := Nat.mod_lt _ (by norm_num)
      norm_num at this ⊢
      omega)]
    exact hmod
  have hwdeklen : wdek.length = 44 := by
    rw [hwdek, List.length_append, henc4len, hKW kek dek hdek]
  have hpeek : peek_epoch wdek = .ok st1.current_epoch := by
    rw [peek_epoch, if_neg (by omega), hdecbe]
  obtain ⟨st2x, hok2, -, -, -, -, -⟩ := get_kek_ok P st2 st1.current_epoch hwf2 hHL
    (by omega) (by omega)
  rw [hsid, hkey, hbase, ← hkek] at hok2
  have hunwrap : unwrap_dek P wdek kek = .ok (dek, st1.current_epoch) := by
    rw [unwrap_dek, if_neg (by simp [hwdeklen, WRAPPED_DEK_SIZE]),
      if_neg (by simp [hkeklen, AES_KEY_LENGTH]), hwdekdrop, hKR kek dek hdek, hdecbe]
  have haadne : build_aad ⟨st1.space_id, recB⟩ ≠ build_aad ⟨st1.space_id, recA⟩ :=
    build_aad_ne st1.space_id recB recA (fun hc => hne hc.symm)
  have hctx : (⟨st2.space_id, recB⟩ : EncryptionContext)
      = ⟨st1.space_id, recB⟩ := by rw [hsid]
  have hdec4 : decrypt_v4 P blob dek (some ⟨st2.space_id, recB⟩)
      = .error .decryptionFailed := by
    rw [hctx, hblob, decrypt_v4, if_neg (by simp [hdek, AES_KEY_LENGTH]),
      if_neg (by
        simp [AES_GCM_IV_LENGTH, AES_GCM_TAG_LENGTH, hiv]
        have := hGL dek iv (build_aad ⟨st1.space_id, recA⟩) padded hdek
        omega)]
    have hvers : ¬ ¬ SUPPORTED_VERSIONS.contains CURRENT_VERSION = true := by decide
    rw [if_neg hvers]
    have htakeiv : (iv ++ P.gcmSeal dek iv (build_aad ⟨st1.space_id, recA⟩) padded).take
        AES_GCM_IV_LENGTH = iv := by
      rw [show AES_GCM_IV_LENGTH = iv.length from hiv.symm]
      exact List.take_left _ _
    have hdropiv : (iv ++ P.gcmSeal dek iv (build_aad ⟨st1.space_id, recA⟩) padded).drop
        AES_GCM_IV_LENGTH
        = P.gcmSeal dek iv (build_aad ⟨st1.space_id, recA⟩) padded := by
      rw [show AES_GCM_IV_LENGTH = iv.length from hiv.symm]
      exact List.drop_left _ _
    simp only [htakeiv, hdropiv,
      hGA dek iv (build_aad ⟨st1.space_id, recA⟩) (build_aad ⟨st1.space_id, recB⟩)
        padded haadne]
  rw [decrypt_inbound, hpeek]
  simp only [hok2, hunwrap, hdec4]

/-- Witness for C2: the concrete C1 encryption (record id "r1")
decrypted with record id "r2" fails with the decryption-failure
error. -/
theorem c2_record_binding_witness :
    decrypt_inbound toyPrims c1Blob c1Wdek (strBytes "r2")
      (EpochKeyCache.new (List.replicate 32 5) 0 (strBytes "s1")) [64]
      = .error (.crypto .decryptionFailed) :=
  c2_record_binding toyPrims ⟨strBytes "tasks", 1, [1, 2, 3], none⟩
    (strBytes "r1") (strBytes "r2")
    (EpochKeyCache.new (List.replicate 32 5) 0 (strBytes "s1"))
    (EpochKeyCache.new (List.replicate 32 5) 0 (strBytes "s1")) [64]
    (List.replicate 32 1) (List.replicate 12 2) c1Blob c1Wdek
    toyGcm_auth toyGcm_minlen toyKw_roundtrip toyKw_wraplen toyHkdf_len
    (by decide) (by decide)
    (wf_new toyPrims (List.replicate 32 5) 0 (strBytes "s1") (by decide) (by decide))
    (wf_new toyPrims (List.replicate 32 5) 0 (strBytes "s1") (by decide) (by decide))
    rfl rfl rfl (by decide) (by decide)

/-- C4: DEK wrap/unwrap.  For every 32-byte DEK and KEK and u32 epoch,
`wrap_dek` succeeds with a 44-byte result whose first 4 bytes are the
big-endian epoch; `unwrap_dek` of that result under the same KEK
returns the DEK and epoch; an input of any other length fails with the
wrapped-DEK length error; and whenever the AES-KW primitive rejects the
ciphertext (wrong KEK or any altered ciphertext byte), `unwrap_dek`
fails with the unwrap (integrity) error. -/
theorem c4_dek_wrap_unwrap (P : Prims) (dek kek : Bytes) (epoch : Nat)
    (hKW : KwWrapLen P) (hKR : KwRoundtrip P)
    (hdek : dek.length = 32) (hkek : kek.length = 32) (hep : epoch < 2 ^ 32) :
    (wrap_dek P dek kek epoch = .ok (encBe 4 epoch ++ P.kwWrap kek dek))
    ∧ ((encBe 4 epoch ++ P.kwWrap kek dek).length = 44)
    ∧ ((encBe 4 epoch ++ P.kwWrap kek dek).take 4 = encBe 4 epoch)
    ∧ (unwrap_dek P (encBe 4 epoch ++ P.kwWrap kek dek) kek = .ok (dek, epoch))
    ∧ (∀ w2 : Bytes, w2.length ≠ 44 →
        unwrap_dek P w2 kek = .error (.invalidWrappedDekLength 44 w2.length))
    ∧ (∀ kek2 w2 : Bytes, kek2.length = 32 → w2.length = 44 →
        P.kwUnwrap kek2 (w2.drop 4) = none →
        unwrap_dek P w2 kek2 = .error .unwrapFailed) := by
  have hmod : epoch % 2 ^ 32 = epoch := Nat.mod_eq_of_lt hep
  have hlen4 : (encBe 4 epoch).length = 4 := encBe_length 4 _
  have hwlen : (encBe 4 epoch ++ P.kwWrap kek dek).length = 44 := by
    rw [List.length_append, hlen4, hKW kek dek hdek]
  have htake : (encBe 4 epoch ++ P.kwWrap kek dek).take 4 = encBe 4 epoch := by
    rw [show (4 : Nat) = (encBe 4 epoch).length from hlen4.symm]
    exact List.take_left _ _
  have hdrop : (encBe 4 epoch ++ P.kwWrap kek dek).drop 4 = P.kwWrap kek dek := by
    rw [show (4 : Nat) = (encBe 4 epoch).length from hlen4.symm]
    exact List.drop_left _ _
  refine ⟨?_, hwlen, htake, ?_, ?_, ?_⟩
  · rw [wrap_dek, if_neg (by simp [hdek, AES_KEY_LENGTH]),
      if_neg (by simp [hkek, AES_KEY_LENGTH]), hmod]
  · rw [unwrap_dek, if_neg (by simp [hwlen, WRAPPED_DEK_SIZE]),
      if_neg (by simp [hkek, AES_KEY_LENGTH]), hdrop, hKR kek dek hdek, htake,
      decBe_encBe 4 epoch (by norm_num at hep ⊢; omega)]
  · intro w2 hw2
    rw [unwrap_dek, if_pos (by simpa [WRAPPED_DEK_SIZE] using hw2)]
    rfl
  · intro kek2 w2 hkek2 hw2 hnone
    rw [unwrap_dek, if_neg (by simp [hw2, WRAPPED_DEK_SIZE]),
      if_neg (by simp [hkek2, AES_KEY_LENGTH]), hnone]

/-- Witness for C4: concrete 32-byte DEK/KEK at epoch 7, a 20-byte
input for the length error, and a KEK of 9s (differing from the
wrapping KEK of 3s) for the integrity error. -/
theorem c4_dek_wrap_unwrap_witness :
    (wrap_dek toyPrims (List.replicate 32 1) (List.replicate 32 3) 7
      = .ok (encBe 4 7 ++ toyPrims.kwWrap (List.replicate 32 3) (List.replicate 32 1)))
    ∧ (unwrap_dek toyPrims
        (encBe 4 7 ++ toyPrims.kwWrap (List.replicate 32 3) (List.replicate 32 1))
        (List.replicate 32 3) = .ok (List.replicate 32 1, 7))
    ∧ (unwrap_dek toyPrims (List.replicate 20 0) (List.replicate 32 3)
      = .error (.invalidWrappedDekLength 44 20))
    ∧ (unwrap_dek toyPrims
        (encBe 4 7 ++ toyPrims.kwWrap (List.replicate 32 3) (List.replicate 32 1))
        (List.replicate 32 9) = .error .unwrapFailed) := by
  have h := c4_dek_wrap_unwrap toyPrims (List.replicate 32 1) (List.replicate 32 3) 7
    toyKw_wraplen toyKw_roundtrip (by decide) (by decide) (by decide)
  refine ⟨h.1, h.2.2.2.1, ?_, ?_⟩
  · have := h.2.2.2.2.1 (List.replicate 20 0) (by decide)
    simpa using this
  · exact h.2.2.2.2.2 (List.replicate 32 9)
      (encBe 4 7 ++ toyPrims.kwWrap (List.replicate 32 3) (List.replicate 32 1))
      (by decide) (by decide) (by decide)

theorem pairwise_le_getLast : ∀ (l : List Nat) (hne : l ≠ []),
    l.Pairwise (· ≤ ·) → ∀ b ∈ l, b ≤ l.getLast hne := by
  intro l
  induction l with
  | nil => intro hne; exact absurd rfl hne
  | cons x xs ih =>
    intro hne hp b hb
    cases xs with
    | nil =>
      simp only [List.mem_singleton] at hb
      subst hb
      simp [List.getLast]
    | cons y ys =>
      rw [List.getLast_cons (by simp)]
      rcases List.mem_cons.mp hb with hbx | hbxs
      · subst hbx
        exact (List.pairwise_cons.mp hp).1 _ (List.getLast_mem _)
      · exact ih (by simp) (List.pairwise_cons.mp hp).2 b hbxs

theorem find?_sorted_min : ∀ (l : List Nat) (t b : Nat), l.Pairwise (· ≤ ·) →
    l.find? (fun x => decide (t ≤ x)) = some b → ∀ b2 ∈ l, t ≤ b2 → b ≤ b2 := by
  intro l
  induction l with
  | nil => intro t b _ hfind; cases hfind
  | cons x xs ih =>
    intro t b hp hfind b2 hb2 ht
    by_cases hpx : t ≤ x
    · rw [List.find?_cons_of_pos _ (by simpa using hpx)] at hfind
      injection hfind with hbx
      subst hbx
      rcases List.mem_cons.mp hb2 with h | h
      · subst h; exact le_refl _
      · exact (List.pairwise_cons.mp hp).1 b2 h
    · rw [List.find?_cons_of_neg _ (by simpa using hpx)] at hfind
      rcases List.mem_cons.mp hb2 with h | h
      · subst h; exact absurd ht hpx
      · exact ih t b (List.pairwise_cons.mp hp).2 hfind b2 h ht

set_option maxRecDepth 40000 in
/-- C9: padding.  For every byte string and ascending non-empty bucket
list of u32-sized buckets: when some bucket fits, `pad_to_bucket`
returns the 4-byte little-endian length, the data and zero fill, sized
to the smallest bucket at least `4 + len(data)`; when `4 + len(data)`
exceeds the largest (last) bucket it fails; and with the default
buckets a 248-byte payload pads to 256 bytes and a 253-byte payload
(257 total) pads to 1024 bytes. -/
theorem c9_pad_to_bucket (data : Bytes) (buckets : List Nat)
    (hsorted : buckets.Pairwise (· ≤ ·)) (hne : buckets ≠ [])
    (hb32 : ∀ b ∈ buckets, b < 2 ^ 32) :
    ((∃ b0 ∈ buckets, 4 + data.length ≤ b0) →
      ∃ b ∈ buckets, 4 + data.length ≤ b
        ∧ pad_to_bucket data buckets
            = .ok (encLe 4 data.length ++ data ++ List.replicate (b - (4 + data.length)) 0)
        ∧ (encLe 4 data.length ++ data
            ++ List.replicate (b - (4 + data.length)) 0).length = b
        ∧ ∀ b2 ∈ buckets, 4 + data.length ≤ b2 → b ≤ b2)
    ∧ (buckets.getLast hne < 4 + data.length →
        pad_to_bucket data buckets = .error .paddingError)
    ∧ ((pad_to_bucket (List.replicate 248 7) DEFAULT_PADDING_BUCKETS).map List.length
        = .ok 256)
    ∧ ((pad_to_bucket (List.replicate 253 7) DEFAULT_PADDING_BUCKETS).map List.length
        = .ok 1024) := by
  have hemp : ¬ buckets.isEmpty = true := by
    cases buckets with
    | nil => exact absurd rfl hne
    | cons x xs => simp [List.isEmpty]
  refine ⟨?_, ?_, by decide, by decide⟩
  · rintro ⟨b0, hb0mem, hb0le⟩
    have hsome : (buckets.find? (fun x => decide (4 + data.length ≤ x))).isSome := by
      rw [List.find?_isSome]
      exact ⟨b0, hb0mem, by simpa using hb0le⟩
    obtain ⟨b, hfind⟩ := Option.isSome_iff_exists.mp hsome
    have hmem : b ∈ buckets := List.mem_of_find?_eq_some hfind
    have hle : 4 + data.length ≤ b := by simpa using List.find?_some hfind
    have hlen : data.length < 2 ^ 32 := by
      have := hb32 b hmem
      omega
    refine ⟨b, hmem, hle, ?_, ?_, find?_sorted_min buckets _ b hsorted hfind⟩
    · rw [pad_to_bucket, if_neg hemp]
      simp only [LENGTH_PREFIX_SIZE]
      rw [hfind, Nat.mod_eq_of_lt hlen]
    · simp only [List.length_append, List.length_replicate, encLe_length]
      omega
  · intro hlast
    have hnone : buckets.find? (fun x => decide (4 + data.length ≤ x)) = none := by
      rw [List.find?_eq_none]
      intro x hx
      have h1 : x ≤ buckets.getLast hne := pairwise_le_getLast buckets hne hsorted x hx
      simp only [decide_eq_true_eq]
      omega
    rw [pad_to_bucket, if_neg hemp]
    simp only [LENGTH_PREFIX_SIZE]
    rw [hnone]

set_option maxRecDepth 40000 in
/-- Witness for C9: the 248-byte-payload example evaluated through the
theorem, and a concrete failure where the data exceeds the largest
bucket of an ascending list. -/
theorem c9_pad_to_bucket_witness :
    ((pad_to_bucket (List.replicate 248 7) DEFAULT_PADDING_BUCKETS).map List.length
      = .ok 256)
    ∧ (pad_to_bucket (List.replicate 13 7) [8, 16] = .error .paddingError) := by
  constructor
  · exact (c9_pad_to_bucket (List.replicate 248 7) DEFAULT_PADDING_BUCKETS
      (by decide) (by decide) (by decide)).2.2.1
  · exact (c9_pad_to_bucket (List.replicate 13 7) [8, 16]
      (by decide) (by decide) (by decide)).2.1 (by decide)

theorem rewrapCacheLoop_spec (P : Prims) (sid ck : Bytes) (ce : Nat)
    (hck : ck.length = 32) (hHL : HkdfLen P) :
    ∀ len s key m, ce + 1 ≤ s → key = chainKey P sid ck ce (s - 1) →
      ∃ m2, rewrapCacheLoop P sid key m (List.range' s len)
          = .ok (chainKey P sid ck ce (s + len - 1), m2)
        ∧ ∀ e, m2 e = if s ≤ e ∧ e < s + len then some (chainKey P sid ck ce e) else m e := by
  intro len
  induction len with
  | zero =>
    intro s key m hs hkey
    refine ⟨m, by simp [List.range', rewrapCacheLoop, hkey], ?_⟩
    intro e
    rw [if_neg (by omega)]
  | succ len ih =>
    intro s key m hs hkey
    have hklen : key.length = 32 := by
      rw [hkey]; exact chainKey_length P sid ck ce _ hck hHL
    have hderive : derive_next_epoch_key P key sid s
        = .ok (hkdfStep P sid key s) := derive_next_ok P key sid s hklen (by omega)
    have hnext : hkdfStep P sid key s = chainKey P sid ck ce s := by
      rw [hkey]; exact chainKey_step P sid ck ce s (by omega)
    obtain ⟨m2, hloop, hchar⟩ := ih (s + 1) (hkdfStep P sid key s)
      (fun x => if x = s then some (hkdfStep P sid key s) else m x)
      (by omega) (by simpa using hnext)
    refine ⟨m2, ?_, ?_⟩
    · have harith : s + 1 + len - 1 = s + (len + 1) - 1 := by omega
      rw [harith] at hloop
      rw [List.range'_succ, rewrapCacheLoop]
      simp only [hderive, hloop]
    · intro e
      rw [hchar e]
      by_cases h1 : s + 1 ≤ e ∧ e < s + 1 + len
      · rw [if_pos h1, if_pos (by omega)]
      · rw [if_neg h1]
        by_cases h2 : e = s
        · subst h2
          rw [if_pos rfl, if_pos (by omega), hnext]
        · rw [if_neg h2, if_neg (by omega)]

theorem rewrap_key_cache (P : Prims) (sid ck : Bytes) (ce ne : Nat)
    (hck : ck.length = 32) (hHL : HkdfLen P) (hlt : ce < ne) :
    ∃ kc, rewrapCacheLoop P sid ck (fun x => if x = ce then some ck else none)
        (List.range' (ce + 1) (ne - ce)) = .ok (chainKey P sid ck ce ne, kc)
      ∧ ∀ e, kc e = if ce ≤ e ∧ e ≤ ne then some (chainKey P sid ck ce e) else none := by
  obtain ⟨kc, hloop, hchar⟩ := rewrapCacheLoop_spec P sid ck ce hck hHL (ne - ce)
    (ce + 1) ck (fun x => if x = ce then some ck else none) (by omega)
    (by simp [chainKey, chainKeyAux])
  have harith : ce + 1 + (ne - ce) - 1 = ne := by omega
  rw [harith] at hloop
  refine ⟨kc, hloop, ?_⟩
  intro e
  rw [hchar e]
  by_cases h1 : ce + 1 ≤ e ∧ e < ce + 1 + (ne - ce)
  · rw [if_pos h1, if_pos (by omega)]
  · rw [if_neg h1]
    by_cases h2 : e = ce
    · subst h2
      rw [if_pos rfl, if_pos (by omega), chainKey_base]
    · rw [if_neg h2, if_neg (by omega)]

theorem rewrapLoop_spec (P : Prims) (kc : Nat → Option Bytes) (nk : Bytes) (ne : Nat)
    (sid ck : Bytes) (ce : Nat)
    (hkc : ∀ e, kc e = if ce ≤ e ∧ e ≤ ne then some (chainKey P sid ck ce e) else none)
    (hnk : nk.length = 32) (hHL : HkdfLen P) (hck : ck.length = 32)
    (dekOf : Bytes × Bytes → Bytes) :
    ∀ pairs : List (Bytes × Bytes),
      (∀ pr ∈ pairs,
        (pr.2.length = 44 ∧ ce ≤ decBe (pr.2.take 4) ∧ decBe (pr.2.take 4) ≤ ne)
        ∧ (decBe (pr.2.take 4) ≠ ne →
            P.kwUnwrap (chainKey P sid ck ce (decBe (pr.2.take 4))) (pr.2.drop 4)
              = some (dekOf pr) ∧ (dekOf pr).length = 32)) →
      rewrapLoop P kc nk ne pairs
        = .ok (pairs.filterMap (fun pr =>
            if decBe (pr.2.take 4) = ne then none
            else some (pr.1, encBe 4 (ne % 2 ^ 32) ++ P.kwWrap nk (dekOf pr)))) := by
  intro pairs
  induction pairs with
  | nil => intro _; rfl
  | cons pr rest ih =>
    intro hall
    obtain ⟨id, w⟩ := pr
    obtain ⟨⟨hw44, hcelo, hnehi⟩, hunw⟩ := hall (id, w) (List.mem_cons_self _ rest)
    replace hw44 : w.length = 44 := hw44
    replace hcelo : ce ≤ decBe (w.take 4) := hcelo
    replace hnehi : decBe (w.take 4) ≤ ne := hnehi
    replace hunw : decBe (w.take 4) ≠ ne →
        P.kwUnwrap (chainKey P sid ck ce (decBe (w.take 4))) (w.drop 4)
          = some (dekOf (id, w)) ∧ (dekOf (id, w)).length = 32 := hunw
    have hpeek : peek_epoch w = .ok (decBe (w.take 4)) := by
      rw [peek_epoch, if_neg (by omega)]
    have hrest := ih (fun q hq => hall q (List.mem_cons_of_mem (id, w) hq))
    by_cases he : decBe (w.take 4) = ne
    · rw [rewrapLoop, hpeek]
      simp only [he, if_pos rfl]
      rw [hrest]
      simp only [List.filterMap_cons]
      simp at he ⊢
      rw [if_pos he]
    · obtain ⟨hunwv, hdlen⟩ := hunw he
      have hkce : kc (decBe (w.take 4))
          = some (chainKey P sid ck ce (decBe (w.take 4))) := by
        rw [hkc, if_pos (by omega)]
      have hclen : (chainKey P sid ck ce (decBe (w.take 4))).length = 32 :=
        chainKey_length P sid ck ce _ hck hHL
      have hunwrap : unwrap_dek P w (chainKey P sid ck ce (decBe (w.take 4)))
          = .ok (dekOf (id, w), decBe (w.take 4)) := by
        rw [unwrap_dek, if_neg (by simp [hw44, WRAPPED_DEK_SIZE]),
          if_neg (by simp [hclen, AES_KEY_LENGTH])]
        rw [hunwv]
      have hwrap : wrap_dek P (dekOf (id, w)) nk ne
          = .ok (encBe 4 (ne % 2 ^ 32) ++ P.kwWrap nk (dekOf (id, w))) := by
        rw [wrap_dek, if_neg (by simp [hdlen, AES_KEY_LENGTH]),
          if_neg (by simp [hnk, AES_KEY_LENGTH])]
      rw [rewrapLoop, hpeek]
      simp only [if_neg he, hkce, hunwrap, hwrap, hrest, Except.map]
      simp only [List.filterMap_cons]
      rw [if_neg (by simpa using he)]

/-- C6: rewrap_deks.  It fails with `InvalidEpochAdvance` whenever the
new epoch does not exceed the current one; otherwise, when every input
pair carries a 44-byte wrapped DEK whose embedded epoch lies in
`[current, new]` and (below `new`) unwraps under the chain key of that
epoch to a 32-byte DEK, the call returns exactly the input pairs below
the target epoch re-wrapped under the new key with epoch prefix `new`
(pairs already at `new` are omitted), and each re-wrapped DEK peeks to
`new` and unwraps under the new key to the original plaintext DEK; and
a single pair whose embedded epoch lies outside `[current, new]` makes
the call fail with `NoKek` of that epoch. -/
theorem c6_rewrap_deks (P : Prims) (pairs : List (Bytes × Bytes)) (ck nk sid : Bytes)
    (ce ne : Nat) (dekOf : Bytes × Bytes → Bytes) :
    (ne ≤ ce → rewrap_deks P pairs ck ce nk ne sid
      = .error (.invalidEpochAdvance ne ce))
    ∧ (ce < ne → ne < 2 ^ 32 → ck.length = 32 → nk.length = 32 →
      HkdfLen P → KwRoundtrip P → KwWrapLen P →
      (∀ pr ∈ pairs,
        (pr.2.length = 44 ∧ ce ≤ decBe (pr.2.take 4) ∧ decBe (pr.2.take 4) ≤ ne)
        ∧ (decBe (pr.2.take 4) ≠ ne →
            P.kwUnwrap (chainKey P sid ck ce (decBe (pr.2.take 4))) (pr.2.drop 4)
              = some (dekOf pr) ∧ (dekOf pr).length = 32)) →
      rewrap_deks P pairs ck ce nk ne sid
        = .ok (pairs.filterMap (fun pr =>
            if decBe (pr.2.take 4) = ne then none
            else some (pr.1, encBe 4 (ne % 2 ^ 32) ++ P.kwWrap nk (dekOf pr))))
      ∧ ∀ pr ∈ pairs, decBe (pr.2.take 4) ≠ ne →
          peek_epoch (encBe 4 (ne % 2 ^ 32) ++ P.kwWrap nk (dekOf pr)) = .ok ne
          ∧ unwrap_dek P (encBe 4 (ne % 2 ^ 32) ++ P.kwWrap nk (dekOf pr)) nk
              = .ok (dekOf pr, ne))
    ∧ (∀ id w, ce < ne → ck.length = 32 → HkdfLen P → 4 ≤ w.length →
        (decBe (w.take 4) < ce ∨ ne < decBe (w.take 4)) →
        rewrap_deks P [(id, w)] ck ce nk ne sid
          = .error (.noKek (decBe (w.take 4)))) := by
  refine ⟨?_, ?_, ?_⟩
  · intro hle
    rw [rewrap_deks, if_pos hle]
  · intro hlt h32 hck hnk hHL hKR hKW hall
    obtain ⟨kc, hloop, hkc⟩ := rewrap_key_cache P sid ck ce ne hck hHL hlt
    constructor
    · rw [rewrap_deks, if_neg (by omega)]
      simp only [hloop]
      exact rewrapLoop_spec P kc nk ne sid ck ce hkc hnk hHL hck dekOf pairs hall
    · intro pr hpr hne2
      have hdlen : (dekOf pr).length = 32 := ((hall pr hpr).2 hne2).2
      have hmod : ne % 2 ^ 32 = ne := Nat.mod_eq_of_lt h32
      have henclen : (encBe 4 (ne % 2 ^ 32)).length = 4 := encBe_length 4 _
      have htake : (encBe 4 (ne % 2 ^ 32) ++ P.kwWrap nk (dekOf pr)).take 4
          = encBe 4 (ne % 2 ^ 32) := by
        rw [show (4 : Nat) = (encBe 4 (ne % 2 ^ 32)).length from henclen.symm]
        exact List.take_left _ _
      have hdrop : (encBe 4 (ne % 2 ^ 32) ++ P.kwWrap nk (dekOf pr)).drop 4
          = P.kwWrap nk (dekOf pr) := by
        rw [show (4 : Nat) = (encBe 4 (ne % 2 ^ 32)).length from henclen.symm]
        exact List.drop_left _ _
      have hdecbe : decBe ((encBe 4 (ne % 2 ^ 32) ++ P.kwWrap nk (dekOf pr)).take 4)
          = ne := by
        rw [htake, decBe_encBe 4 _ (by
          have : ne % 2 ^ 32 < 2 ^ 32 := Nat.mod_lt _ (by norm_num)
          norm_num at this ⊢
          omega)]
        exact hmod
      have hwlen : (encBe 4 (ne % 2 ^ 32) ++ P.kwWrap nk (dekOf pr)).length = 44 := by
        rw [List.length_append, encBe_length 4, hKW nk (dekOf pr) hdlen]
      constructor
      · rw [peek_epoch, if_neg (by omega), hdecbe]
      · rw [unwrap_dek, if_neg (by simp only [WRAPPED_DEK_SIZE, ne_eq]; omega),
          if_neg (by simp [hnk, AES_KEY_LENGTH]), hdrop, hKR nk (dekOf pr) hdlen, hdecbe]
  · intro id w hlt hck hHL hw4 hout
    obtain ⟨kc, hloop, hkc⟩ := rewrap_key_cache P sid ck ce ne hck hHL hlt
    rw [rewrap_deks, if_neg (by omega)]
    simp only [hloop]
    have hpeek : peek_epoch w = .ok (decBe (w.take 4)) := by
      rw [peek_epoch, if_neg (by omega)]
    have hnone : kc (decBe (w.take 4)) = none := by
      rw [hkc, if_neg (by omega)]
    rw [rewrapLoop, hpeek]
    simp only [if_neg (show ¬ decBe (w.take 4) = ne by omega), hnone]

/-- Witness for C6: a rejected non-advance, one pair wrapped at epoch 1
re-wrapped from epoch 1 to 3 under the toy primitives, and a NoKek
failure for a pair embedded at epoch 5 outside the chain. -/
theorem c6_rewrap_deks_witness :
    (rewrap_deks toyPrims [] (List.replicate 32 1) 1 (List.replicate 32 4) 1 (strBytes "s")
      = .error (.invalidEpochAdvance 1 1))
    ∧ (rewrap_deks toyPrims
        [(strBytes "a", encBe 4 1 ++ toyKwWrap (List.replicate 32 1) (List.replicate 32 8))]
        (List.replicate 32 1) 1 (List.replicate 32 4) 3 (strBytes "s")
      = .ok [(strBytes "a",
          encBe 4 (3 % 2 ^ 32) ++ toyPrims.kwWrap (List.replicate 32 4)
            (List.replicate 32 8))])
    ∧ (rewrap_deks toyPrims
        [(strBytes "a", encBe 4 5 ++ toyKwWrap (List.replicate 32 1) (List.replicate 32 8))]
        (List.replicate 32 1) 1 (List.replicate 32 4) 3 (strBytes "s")
      = .error (.noKek 5)) := by
  refine ⟨?_, ?_, ?_⟩
  · exact (c6_rewrap_deks toyPrims [] (List.replicate 32 1) (List.replicate 32 4)
      (strBytes "s") 1 1 (fun _ => [])).1 (by decide)
  · have h := (c6_rewrap_deks toyPrims
      [(strBytes "a", encBe 4 1 ++ toyKwWrap (List.replicate 32 1) (List.replicate 32 8))]
      (List.replicate 32 1) (List.replicate 32 4) (strBytes "s") 1 3
      (fun _ => List.replicate 32 8)).2.1 (by decide) (by decide) (by decide) (by decide)
      toyHkdf_len toyKw_roundtrip toyKw_wraplen
      (by
        intro pr hpr
        simp only [List.mem_singleton] at hpr
        subst hpr
        refine ⟨by decide, fun _ => by decide⟩)
    have h1 := h.1
    rw [h1]
    decide
  · have h := (c6_rewrap_deks toyPrims
      [(strBytes "a", encBe 4 5 ++ toyKwWrap (List.replicate 32 1) (List.replicate 32 8))]
      (List.replicate 32 1) (List.replicate 32 4) (strBytes "s") 1 3
      (fun _ => List.replicate 32 8)).2.2 (strBytes "a")
      (encBe 4 5 ++ toyKwWrap (List.replicate 32 1) (List.replicate 32 8))
      (by decide) (by decide) toyHkdf_len (by decide) (by decide)
    simpa using h

theorem chainVerify_iff (SP : SigPrims) (c r : Bytes) :
    ∀ (l : List EditEntry) (prev : EditEntry),
      chainVerify SP c r prev l = true ↔
        (∀ e ∈ l, verify_edit_entry SP e c r = true)
        ∧ List.Chain' (fun a b => b.p = some (uint8_to_hex (SP.sha256 a.s)))
            (prev :: l) := by
  intro l
  induction l with
  | nil =>
    intro prev
    simp [chainVerify]
  | cons e es ih =>
    intro prev
    simp only [chainVerify, Bool.and_eq_true, beq_iff_eq, ih e, List.chain'_cons,
      List.forall_mem_cons]
    tauto

/-- C3: `verify_edit_chain` returns true exactly when the chain is
empty, or its first entry has no previous hash, every entry passes
`verify_edit_entry` for the given collection and record id, and every
later entry's previous hash is the lowercase hex SHA-256 of its
predecessor's signature bytes; so any tampering with a diff, a
signature, a hash link, the first entry or the order falsifies one of
these conjuncts and makes verification fail. -/
theorem c3_verify_edit_chain (SP : SigPrims) (entries : List EditEntry) (c r : Bytes) :
    verify_edit_chain SP entries c r = true ↔
      ((∀ e0, entries.head? = some e0 → e0.p = none)
        ∧ (∀ e ∈ entries, verify_edit_entry SP e c r = true)
        ∧ List.Chain' (fun a b => b.p = some (uint8_to_hex (SP.sha256 a.s))) entries) := by
  cases entries with
  | nil => simp [verify_edit_chain]
  | cons e0 rest =>
    by_cases hp : e0.p.isSome
    · apply iff_of_false
      · simp [verify_edit_chain, hp]
      · rintro ⟨h1, -, -⟩
        have := h1 e0 rfl
        simp [this] at hp
    · have hpnone : e0.p = none := Option.not_isSome_iff_eq_none.mp hp
      simp only [verify_edit_chain, if_neg hp, Bool.and_eq_true,
        chainVerify_iff SP c r rest e0, List.head?_cons, Option.some.injEq,
        List.forall_mem_cons, List.chain'_cons]
      constructor
      · rintro ⟨hv0, hrest, hchain⟩
        exact ⟨fun e0x he => he ▸ hpnone, ⟨hv0, hrest⟩, hchain⟩
      · rintro ⟨-, ⟨hv0, hrest⟩, hchain⟩
        exact ⟨hv0, hrest, hchain⟩

/-- C7 counterexample: at collection, record id, author all empty,
timestamp 0, no previous hash and no diffs, the signing message does
not have the claimed layout that begins with the UTF-8 bytes of
"editlog:v1" — the code's prefix is "less:editlog:v1". -/
theorem c7_signing_message_counterexample :
    build_edit_signing_message [] [] [] 0 none []
      ≠ strBytes "editlog:v1" ++ 0 :: ([] : Bytes) ++ 0 :: ([] : Bytes)
        ++ 0 :: ([] : Bytes) ++ 0 :: decBytes 0 ++ 0 :: ([] : Bytes)
        ++ 0 :: diffsJson [] := by decide

/-- C7 amended: the signing message is exactly the UTF-8 bytes of
"less:editlog:v1" followed by NUL, the collection, NUL, the record id,
NUL, the author, NUL, the decimal timestamp, NUL, the previous hash or
empty string, NUL, and the canonical JSON of the normalized diffs; the
second conjunct evaluates one fully concrete instance with a deletion
diff. -/
theorem c7_signing_message_amended (c r a : Bytes) (t : Nat) (p : Option Bytes)
    (d : List EditDiff) :
    (build_edit_signing_message c r a t p d
      = strBytes "less:editlog:v1" ++ 0 :: c ++ 0 :: r ++ 0 :: a ++ 0 :: decBytes t
        ++ 0 :: p.getD [] ++ 0 :: diffsJson d)
    ∧ (build_edit_signing_message (strBytes "tasks") (strBytes "r1")
        (strBytes "did:key:z1") 1234 (some (strBytes "ab"))
        [⟨strBytes "name", .str (strBytes "Alice"), .null, some true⟩]
      = strBytes "less:editlog:v1" ++ 0 :: strBytes "tasks" ++ 0 :: strBytes "r1"
        ++ 0 :: strBytes "did:key:z1" ++ 0 :: strBytes "1234" ++ 0 :: strBytes "ab"
        ++ 0 :: (91 :: 123
            :: (strBytes "\"del\":true,\"from\":\"Alice\",\"path\":\"name\",\"to\":null"
              ++ [125, 93]))) :=
  ⟨rfl, by decide⟩

/-- C10: `verify_edit_chain` does not check timestamp ordering — for
any hash function and any (idealized, equation-checking) signature
scheme there is a two-entry chain, each entry correctly signed over its
own contents and correctly hash-linked, whose timestamps strictly
decrease, that verifies; monotonicity is enforced only by
`sign_edit_entry`, which clamps the timestamp to one more than the
previous entry's whenever a previous entry exists. -/
theorem c10_no_timestamp_check_in_verify (sha : Bytes → Bytes)
    (symSig : Json → Bytes → Bytes) (kJwk : Json) (a c r : Bytes) :
    (∃ e1 e2 : EditEntry,
      e2.t < e1.t
      ∧ e1.s = symSig kJwk (build_edit_signing_message c r a e1.t e1.p e1.d)
      ∧ e2.s = symSig kJwk (build_edit_signing_message c r a e2.t e2.p e2.d)
      ∧ e2.p = some (uint8_to_hex (sha e1.s))
      ∧ verify_edit_chain
          ⟨sha, fun _ m => m, fun k m s => s == symSig k m, fun _ => .ok a⟩
          [e1, e2] c r = true)
    ∧ (∀ (SP2 : SigPrims) (sk : Bytes) (jwk : Json) (col rid auth : Bytes) (t : Nat)
        (d : List EditDiff) (pe : EditEntry),
        (sign_edit_entry SP2 sk jwk col rid auth t d (some pe)).t = max t (pe.t + 1)) := by
  constructor
  · refine ⟨⟨a, 5, [], none,
        symSig kJwk (build_edit_signing_message c r a 5 none []), kJwk⟩,
      ⟨a, 3, [],
        some (uint8_to_hex (sha
          (symSig kJwk (build_edit_signing_message c r a 5 none [])))),
        symSig kJwk (build_edit_signing_message c r a 3
          (some (uint8_to_hex (sha
            (symSig kJwk (build_edit_signing_message c r a 5 none []))))) []), kJwk⟩,
      by show (3 : Nat) < 5; norm_num, rfl, rfl, rfl, ?_⟩
    simp [verify_edit_chain, chainVerify, verify_edit_entry]
  · intro SP2 sk jwk col rid auth t d pe
    rfl

/-- C8: `verify_membership_entry` returns `Ok false` whenever the DID
encoded from the entry's embedded signer public key differs from the
role-determined DID of the entry's UCAN — the UCAN issuer for
delegation and revoked entries, the UCAN audience for accepted and
declined entries. -/
theorem c8_membership_role_binding (MP : MemPrims) (entry : MembershipEntryPayload)
    (space_id : Bytes) (parsed : ParsedUCAN) (sdid : Bytes)
    (hparse : parse_ucan_payload MP entry.ucan = .ok parsed)
    (hdid : MP.didFromJwk entry.signer_public_key = .ok sdid)
    (hne : sdid ≠ expectedSignerDid entry.entry_type parsed) :
    verify_membership_entry MP entry space_id = .ok false := by
  rw [verify_membership_entry]
  simp only [hparse, hdid]
  rw [if_pos hne]

/-- Witness for C8: a delegation entry whose embedded key encodes to
the UCAN audience DID "B" instead of the issuer DID "A" fails
verification. -/
theorem c8_membership_role_binding_witness :
    verify_membership_entry
      ⟨fun _ _ _ => true, fun _ => .ok (strBytes "B"), fun b => .ok b,
        fun _ => .ok (.obj [(strBytes "iss", .str (strBytes "A")),
          (strBytes "aud", .str (strBytes "B"))])⟩
      ⟨strBytes "h.p.s", .delegation, [], .null, none, none, none, none, none⟩
      (strBytes "sp") = .ok false :=
  c8_membership_role_binding
    ⟨fun _ _ _ => true, fun _ => .ok (strBytes "B"), fun b => .ok b,
      fun _ => .ok (.obj [(strBytes "iss", .str (strBytes "A")),
        (strBytes "aud", .str (strBytes "B"))])⟩
    ⟨strBytes "h.p.s", .delegation, [], .null, none, none, none, none, none⟩
    (strBytes "sp") ⟨strBytes "A", strBytes "B"⟩ (strBytes "B")
    (by decide) (by decide) (by decide)

end Betterbase
